import Mathlib

/-!
Verification of mcp-guardian (detection / integrity engine).

The TypeScript sources are shallowly embedded: JSON values become an inductive
type, the file system becomes explicit state passing, JavaScript objects become
association lists in insertion order, and machine integers become Nat with
explicit reduction modulo 2 ^ 32 where overflow matters.  Numbers inside JSON
schemas are modelled as integers.
-/

set_option maxHeartbeats 1600000

/-- JSON values, as produced by JSON.parse.  Objects are association lists in
key insertion order; numbers are modelled as integers. -/
inductive Json where
  | null : Json
  | bool (b : Bool) : Json
  | num (n : Int) : Json
  | str (s : String) : Json
  | arr (xs : List Json) : Json
  | obj (l : List (String × Json)) : Json
deriving Repr

mutual
/-- Boolean equality on Json (the derive handler does not support the nested
recursion, so it is written out). -/
def jsonBeq : Json → Json → Bool
  | .null, .null => true
  | .bool a, .bool b => a == b
  | .num a, .num b => a == b
  | .str a, .str b => a == b
  | .arr xs, .arr ys => jsonListBeq xs ys
  | .obj l1, .obj l2 => jsonPairsBeq l1 l2
  | _, _ => false

/-- jsonBeq on lists. -/
def jsonListBeq : List Json → List Json → Bool
  | [], [] => true
  | x :: xs, y :: ys => jsonBeq x y && jsonListBeq xs ys
  | _, _ => false

/-- jsonBeq on entry lists. -/
def jsonPairsBeq : List (String × Json) → List (String × Json) → Bool
  | [], [] => true
  | (k1, v1) :: xs, (k2, v2) :: ys => k1 == k2 && jsonBeq v1 v2 && jsonPairsBeq xs ys
  | _, _ => false
end

mutual
theorem jsonBeq_iff : ∀ a b : Json, jsonBeq a b = true ↔ a = b
  | .null, .null => by simp [jsonBeq]
  | .bool a, .bool b => by simp [jsonBeq]
  | .num a, .num b => by simp [jsonBeq]
  | .str a, .str b => by simp [jsonBeq]
  | .arr xs, .arr ys => by
      simpa [jsonBeq] using jsonListBeq_iff xs ys
  | .obj l1, .obj l2 => by
      simpa [jsonBeq] using jsonPairsBeq_iff l1 l2
  | .null, .bool _ | .null, .num _ | .null, .str _ | .null, .arr _ | .null, .obj _
  | .bool _, .null | .bool _, .num _ | .bool _, .str _ | .bool _, .arr _ | .bool _, .obj _
  | .num _, .null | .num _, .bool _ | .num _, .str _ | .num _, .arr _ | .num _, .obj _
  | .str _, .null | .str _, .bool _ | .str _, .num _ | .str _, .arr _ | .str _, .obj _
  | .arr _, .null | .arr _, .bool _ | .arr _, .num _ | .arr _, .str _ | .arr _, .obj _
  | .obj _, .null | .obj _, .bool _ | .obj _, .num _ | .obj _, .str _ | .obj _, .arr _ => by
      simp [jsonBeq]

theorem jsonListBeq_iff : ∀ xs ys : List Json, jsonListBeq xs ys = true ↔ xs = ys
  | [], [] => by simp [jsonListBeq]
  | x :: xs, y :: ys => by
      simp [jsonListBeq, Bool.and_eq_true, jsonBeq_iff x y, jsonListBeq_iff xs ys]
  | [], _ :: _ => by simp [jsonListBeq]
  | _ :: _, [] => by simp [jsonListBeq]

theorem jsonPairsBeq_iff : ∀ xs ys : List (String × Json), jsonPairsBeq xs ys = true ↔ xs = ys
  | [], [] => by simp [jsonPairsBeq]
  | (k1, v1) :: xs, (k2, v2) :: ys => by
      simp [jsonPairsBeq, Bool.and_eq_true, jsonBeq_iff v1 v2, jsonPairsBeq_iff xs ys,
        and_assoc]
  | [], _ :: _ => by simp [jsonPairsBeq]
  | _ :: _, [] => by simp [jsonPairsBeq]
end

instance : DecidableEq Json := fun a b => decidable_of_iff (jsonBeq a b = true) (jsonBeq_iff a b)

/-- Lexicographic comparison of character lists; models the default JavaScript
string comparison used by Array.prototype.sort. -/
def charListLe : List Char → List Char → Bool
  | [], _ => true
  | _ :: _, [] => false
  | a :: as, b :: bs => if a < b then true else if b < a then false else charListLe as bs

/-- Strict version of charListLe. -/
def charListLt (a b : List Char) : Bool := !(charListLe b a)

/-- String comparison used to model the JavaScript sort order on keys and
file names. -/
def strLe (a b : String) : Bool := charListLe a.data b.data

/-- Ordering of object entries by key, as used when sorting object keys. -/
def keyLe (p q : String × Json) : Prop := strLe p.1 q.1 = true

/-- Strict ordering of object entries by key. -/
def keyLt (p q : String × Json) : Prop := charListLt p.1.data q.1.data = true

instance : DecidableRel keyLe := fun p q => inferInstanceAs (Decidable (strLe p.1 q.1 = true))

instance : DecidableRel keyLt := fun p q =>
  inferInstanceAs (Decidable (charListLt p.1.data q.1.data = true))

mutual
/-- Model of sortObjectKeys (tool-pinning.ts): recursively sorts object keys
for consistent JSON stringification, leaving arrays in order. -/
def sortObjectKeys : Json → Json
  | .null => .null
  | .bool b => .bool b
  | .num n => .num n
  | .str s => .str s
  | .arr xs => .arr (sortKeysList xs)
  | .obj l => .obj (List.insertionSort keyLe (sortKeysPairs l))

/-- sortObjectKeys mapped over array elements. -/
def sortKeysList : List Json → List Json
  | [] => []
  | x :: xs => sortObjectKeys x :: sortKeysList xs

/-- sortObjectKeys mapped over the values of an object entry list. -/
def sortKeysPairs : List (String × Json) → List (String × Json)
  | [] => []
  | (k, v) :: rest => (k, sortObjectKeys v) :: sortKeysPairs rest
end

/-- Find the first entry with the given key and return its value together with
the remaining entries. -/
def findRemove (k : String) : List (String × Json) → Option (Json × List (String × Json))
  | [] => none
  | (k2, v) :: rest =>
      if k2 = k then some (v, rest)
      else
        match findRemove k rest with
        | none => none
        | some (v2, rest2) => some (v2, (k2, v) :: rest2)

mutual
/-- Deep equality of JSON values up to recursive reordering of object keys;
array element order is significant.  This is the specification-side relation
of the fingerprint-stability property. -/
def jsonEquivB : Json → Json → Bool
  | .null, .null => true
  | .bool a, .bool b => a == b
  | .num a, .num b => a == b
  | .str a, .str b => a == b
  | .arr xs, .arr ys => listEquivB xs ys
  | .obj l1, .obj l2 => objEquivB l1 l2
  | _, _ => false

/-- Pointwise equivalence of JSON lists. -/
def listEquivB : List Json → List Json → Bool
  | [], [] => true
  | x :: xs, y :: ys => jsonEquivB x y && listEquivB xs ys
  | _, _ => false

/-- Equivalence of object entry lists: every entry on the left is matched,
key by key, against an entry on the right. -/
def objEquivB : List (String × Json) → List (String × Json) → Bool
  | [], [] => true
  | [], _ :: _ => false
  | (k, v) :: rest, l2 =>
      match findRemove k l2 with
      | none => false
      | some (v2, l2rest) => jsonEquivB v v2 && objEquivB rest l2rest
end

mutual
/-- Every object inside the value has pairwise distinct keys (true of any
value produced by JSON.parse). -/
def keysNodupB : Json → Bool
  | .null => true
  | .bool _ => true
  | .num _ => true
  | .str _ => true
  | .arr xs => keysNodupList xs
  | .obj l => ((l.map Prod.fst).Nodup : Bool) && keysNodupPairs l

/-- keysNodupB over array elements. -/
def keysNodupList : List Json → Bool
  | [] => true
  | x :: xs => keysNodupB x && keysNodupList xs

/-- keysNodupB over object entry values. -/
def keysNodupPairs : List (String × Json) → Bool
  | [] => true
  | (_, v) :: rest => keysNodupB v && keysNodupPairs rest
end

/-! Order-theoretic facts about the modelled JavaScript string comparison. -/

theorem charListLe_refl : ∀ l : List Char, charListLe l l = true
  | [] => rfl
  | a :: as => by simp [charListLe, lt_irrefl, charListLe_refl as]

theorem charListLe_total : ∀ a b : List Char, charListLe a b = true ∨ charListLe b a = true
  | [], _ => .inl rfl
  | _ :: _, [] => .inr rfl
  | a :: as, b :: bs => by
      rcases lt_trichotomy a b with h | h | h
      · exact .inl (by simp [charListLe, h])
      · subst h
        rcases charListLe_total as bs with ih | ih
        · exact .inl (by simp [charListLe, lt_irrefl a, ih])
        · exact .inr (by simp [charListLe, lt_irrefl a, ih])
      · exact .inr (by simp [charListLe, h])

theorem charListLe_antisymm : ∀ a b : List Char,
    charListLe a b = true → charListLe b a = true → a = b
  | [], [], _, _ => rfl
  | [], _ :: _, _, h2 => by simp [charListLe] at h2
  | _ :: _, [], h1, _ => by simp [charListLe] at h1
  | a :: as, b :: bs, h1, h2 => by
      rcases lt_trichotomy a b with h | h | h
      · simp [charListLe, h, lt_asymm h] at h2
      · subst h
        simp only [charListLe, lt_irrefl a, if_false] at h1 h2
        rw [charListLe_antisymm as bs h1 h2]
      · simp [charListLe, h, lt_asymm h] at h1

theorem charListLe_trans : ∀ a b c : List Char,
    charListLe a b = true → charListLe b c = true → charListLe a c = true
  | [], _, _, _, _ => rfl
  | _ :: _, [], _, h1, _ => by simp [charListLe] at h1
  | _ :: _, _ :: _, [], _, h2 => by simp [charListLe] at h2
  | a :: as, b :: bs, c :: cs, h1, h2 => by
      rcases lt_trichotomy a b with hab | hab | hab
      · rcases lt_trichotomy b c with hbc | hbc | hbc
        · simp [charListLe, lt_trans hab hbc]
        · subst hbc
          simp [charListLe, hab]
        · simp [charListLe, hbc, lt_asymm hbc] at h2
      · subst hab
        rcases lt_trichotomy a c with hac | hac | hac
        · simp [charListLe, hac]
        · subst hac
          have h1s : charListLe as bs = true := by
            simpa [charListLe, lt_irrefl a] using h1
          have h2s : charListLe bs cs = true := by
            simpa [charListLe, lt_irrefl a] using h2
          simp [charListLe, lt_irrefl a, charListLe_trans as bs cs h1s h2s]
        · simp [charListLe, hac, lt_asymm hac] at h2
      · simp [charListLe, hab, lt_asymm hab] at h1

theorem charListLt_asymm (a b : List Char)
    (h1 : charListLt a b = true) (h2 : charListLt b a = true) : False := by
  simp only [charListLt, Bool.not_eq_true'] at h1 h2
  rcases charListLe_total a b with h | h
  · rw [h] at h2
    exact Bool.noConfusion h2
  · rw [h] at h1
    exact Bool.noConfusion h1

theorem charListLt_of_le_ne (a b : List Char)
    (hle : charListLe a b = true) (hne : a ≠ b) : charListLt a b = true := by
  simp only [charListLt, Bool.not_eq_true']
  cases hba : charListLe b a with
  | false => rfl
  | true => exact absurd (charListLe_antisymm a b hle hba) hne

instance : IsTotal (String × Json) keyLe :=
  ⟨fun p q => charListLe_total p.1.data q.1.data⟩

instance : IsTrans (String × Json) keyLe :=
  ⟨fun p q r => charListLe_trans p.1.data q.1.data r.1.data⟩

instance : IsAntisymm (String × Json) keyLt :=
  ⟨fun p q h1 h2 => absurd (charListLt_asymm p.1.data q.1.data h1 h2) not_false⟩

theorem keyLt_of_keyLe_ne {p q : String × Json} (hle : keyLe p q) (hne : p.1 ≠ q.1) :
    keyLt p q :=
  charListLt_of_le_ne p.1.data q.1.data hle
    (fun h => hne (String.ext h))

theorem sortKeysPairs_eq_map : ∀ l : List (String × Json),
    sortKeysPairs l = l.map (fun p => (p.1, sortObjectKeys p.2))
  | [] => rfl
  | (k, v) :: rest => by simp [sortKeysPairs, sortKeysPairs_eq_map rest]

theorem sortKeysList_eq_map : ∀ l : List Json, sortKeysList l = l.map sortObjectKeys
  | [] => rfl
  | x :: xs => by simp [sortKeysList, sortKeysList_eq_map xs]

theorem sorted_keyLt_of_nodup (S : List (String × Json))
    (hs : List.Sorted keyLe S) (hn : (S.map Prod.fst).Nodup) : List.Sorted keyLt S := by
  have hne : List.Pairwise (fun p q : String × Json => p.1 ≠ q.1) S :=
    List.pairwise_map.mp hn
  exact (hs.and hne).imp (fun h => keyLt_of_keyLe_ne h.1 h.2)

/-- Sorting two key-permuted entry lists with pairwise distinct keys gives the
same result. -/
theorem insertionSort_keyLe_eq_of_perm (X Y : List (String × Json))
    (hX : (X.map Prod.fst).Nodup) (hXY : X.Perm Y) :
    List.insertionSort keyLe X = List.insertionSort keyLe Y := by
  have hpermX : (List.insertionSort keyLe X).Perm X := List.perm_insertionSort keyLe X
  have hpermY : (List.insertionSort keyLe Y).Perm Y := List.perm_insertionSort keyLe Y
  have hXkeys : ((List.insertionSort keyLe X).map Prod.fst).Nodup :=
    ((hpermX.map Prod.fst).symm.nodup_iff).mp hX
  have hY : (Y.map Prod.fst).Nodup := ((hXY.map Prod.fst).nodup_iff).mp hX
  have hYkeys : ((List.insertionSort keyLe Y).map Prod.fst).Nodup :=
    ((hpermY.map Prod.fst).symm.nodup_iff).mp hY
  have hsX : List.Sorted keyLt (List.insertionSort keyLe X) :=
    sorted_keyLt_of_nodup _ (List.sorted_insertionSort keyLe X) hXkeys
  have hsY : List.Sorted keyLt (List.insertionSort keyLe Y) :=
    sorted_keyLt_of_nodup _ (List.sorted_insertionSort keyLe Y) hYkeys
  exact List.eq_of_perm_of_sorted ((hpermX.trans hXY).trans hpermY.symm) hsX hsY

theorem findRemove_perm : ∀ (k : String) (l : List (String × Json)) (v2 : Json)
    (rest : List (String × Json)), findRemove k l = some (v2, rest) →
    l.Perm ((k, v2) :: rest)
  | k, [], v2, rest, h => by simp [findRemove] at h
  | k, (k2, v) :: tl, v2, rest, h => by
      by_cases hk : k2 = k
      · subst hk
        simp only [findRemove, if_pos rfl, Option.some.injEq, Prod.mk.injEq] at h
        obtain ⟨rfl, rfl⟩ := h
        exact List.Perm.refl _
      · simp only [findRemove, if_neg hk] at h
        rcases hfr : findRemove k tl with _ | ⟨v3, rest3⟩
        · rw [hfr] at h
          simp at h
        · rw [hfr] at h
          simp only [Option.some.injEq, Prod.mk.injEq] at h
          obtain ⟨rfl, rfl⟩ := h
          have ih := findRemove_perm k tl v3 rest3 hfr
          exact (ih.cons (k2, v)).trans (List.Perm.swap (k, v3) (k2, v) rest3)

mutual
/-- Canonicalization is invariant under deep equality up to key reordering. -/
theorem sortObjectKeys_eq_of_equiv : ∀ a b : Json, keysNodupB a = true →
    jsonEquivB a b = true → sortObjectKeys a = sortObjectKeys b
  | .null, .null, _, _ => rfl
  | .bool x, .bool y, _, he => by
      simp only [jsonEquivB, beq_iff_eq] at he
      subst he
      rfl
  | .num x, .num y, _, he => by
      simp only [jsonEquivB, beq_iff_eq] at he
      subst he
      rfl
  | .str x, .str y, _, he => by
      simp only [jsonEquivB, beq_iff_eq] at he
      subst he
      rfl
  | .arr xs, .arr ys, hn, he => by
      simp only [jsonEquivB] at he
      simp only [keysNodupB] at hn
      simp only [sortObjectKeys]
      rw [sortKeysList_eq_of_equiv xs ys hn he]
  | .obj l1, .obj l2, hn, he => by
      simp only [jsonEquivB] at he
      simp only [keysNodupB, Bool.and_eq_true, decide_eq_true_eq] at hn
      have hperm := sortKeysPairs_perm_of_equiv l1 l2 hn.2 he
      have hkeys : ((sortKeysPairs l1).map Prod.fst).Nodup := by
        rw [sortKeysPairs_eq_map, List.map_map]
        exact hn.1
      simp only [sortObjectKeys]
      rw [insertionSort_keyLe_eq_of_perm _ _ hkeys hperm]
  | .null, .bool _, _, he | .null, .num _, _, he | .null, .str _, _, he
  | .null, .arr _, _, he | .null, .obj _, _, he
  | .bool _, .null, _, he | .bool _, .num _, _, he | .bool _, .str _, _, he
  | .bool _, .arr _, _, he | .bool _, .obj _, _, he
  | .num _, .null, _, he | .num _, .bool _, _, he | .num _, .str _, _, he
  | .num _, .arr _, _, he | .num _, .obj _, _, he
  | .str _, .null, _, he | .str _, .bool _, _, he | .str _, .num _, _, he
  | .str _, .arr _, _, he | .str _, .obj _, _, he
  | .arr _, .null, _, he | .arr _, .bool _, _, he | .arr _, .num _, _, he
  | .arr _, .str _, _, he | .arr _, .obj _, _, he
  | .obj _, .null, _, he | .obj _, .bool _, _, he | .obj _, .num _, _, he
  | .obj _, .str _, _, he | .obj _, .arr _, _, he => by
      simp [jsonEquivB] at he
termination_by a _ _ _ => sizeOf a

/-- Pointwise version of sortObjectKeys_eq_of_equiv for arrays. -/
theorem sortKeysList_eq_of_equiv : ∀ xs ys : List Json, keysNodupList xs = true →
    listEquivB xs ys = true → sortKeysList xs = sortKeysList ys
  | [], [], _, _ => rfl
  | [], _ :: _, _, he => by simp [listEquivB] at he
  | _ :: _, [], _, he => by simp [listEquivB] at he
  | x :: xs, y :: ys, hn, he => by
      simp only [listEquivB, Bool.and_eq_true] at he
      simp only [keysNodupList, Bool.and_eq_true] at hn
      simp only [sortKeysList]
      rw [sortObjectKeys_eq_of_equiv x y hn.1 he.1, sortKeysList_eq_of_equiv xs ys hn.2 he.2]
termination_by xs _ _ _ => sizeOf xs

/-- Key-matched entry lists have permuted canonicalized entries. -/
theorem sortKeysPairs_perm_of_equiv : ∀ l1 l2 : List (String × Json),
    keysNodupPairs l1 = true → objEquivB l1 l2 = true →
    (sortKeysPairs l1).Perm (sortKeysPairs l2)
  | [], [], _, _ => List.Perm.refl _
  | [], _ :: _, _, he => by simp [objEquivB] at he
  | (k, v) :: rest, l2, hn, he => by
      simp only [objEquivB] at he
      rcases hfr : findRemove k l2 with _ | ⟨v2, l2rest⟩
      · rw [hfr] at he
        simp at he
      · rw [hfr] at he
        simp only [Bool.and_eq_true] at he
        simp only [keysNodupPairs, Bool.and_eq_true] at hn
        have hv := sortObjectKeys_eq_of_equiv v v2 hn.1 he.1
        have ihp := sortKeysPairs_perm_of_equiv rest l2rest hn.2 he.2
        have hl2 : l2.Perm ((k, v2) :: l2rest) := findRemove_perm k l2 v2 l2rest hfr
        have hl2s : (sortKeysPairs l2).Perm (sortKeysPairs ((k, v2) :: l2rest)) := by
          rw [sortKeysPairs_eq_map, sortKeysPairs_eq_map]
          exact hl2.map _
        simp only [sortKeysPairs] at hl2s ⊢
        rw [hv]
        exact (ihp.cons (k, sortObjectKeys v2)).trans hl2s.symm
termination_by l1 _ _ _ => sizeOf l1
end

/-! SHA-256, modelled over lists of bytes with Nat arithmetic modulo 2 ^ 32. -/

/-- Reduce modulo 2 ^ 32. -/
def w32 (n : Nat) : Nat := n % 4294967296

/-- Rotate a 32-bit word right by n bits. -/
def rotr32 (x n : Nat) : Nat := w32 ((x >>> n) ||| (x <<< (32 - n)))

/-- SHA-256 choice function. -/
def sha2ch (x y z : Nat) : Nat := (x &&& y) ^^^ ((x ^^^ 4294967295) &&& z)

/-- SHA-256 majority function. -/
def sha2maj (x y z : Nat) : Nat := (x &&& y) ^^^ (x &&& z) ^^^ (y &&& z)

/-- SHA-256 big sigma 0. -/
def bsig0 (x : Nat) : Nat := rotr32 x 2 ^^^ rotr32 x 13 ^^^ rotr32 x 22

/-- SHA-256 big sigma 1. -/
def bsig1 (x : Nat) : Nat := rotr32 x 6 ^^^ rotr32 x 11 ^^^ rotr32 x 25

/-- SHA-256 small sigma 0. -/
def ssig0 (x : Nat) : Nat := rotr32 x 7 ^^^ rotr32 x 18 ^^^ (x >>> 3)

/-- SHA-256 small sigma 1. -/
def ssig1 (x : Nat) : Nat := rotr32 x 17 ^^^ rotr32 x 19 ^^^ (x >>> 10)

/-- SHA-256 round constants (FIPS 180-4, written in decimal). -/
def K256 : List Nat := [
  1116352408, 1899447441, 3049323471, 3921009573, 961987163, 1508970993,
  2453635748, 2870763221, 3624381080, 310598401, 607225278, 1426881987,
  1925078388, 2162078206, 2614888103, 3248222580, 3835390401, 4022224774,
  264347078, 604807628, 770255983, 1249150122, 1555081692, 1996064986,
  2554220882, 2821834349, 2952996808, 3210313671, 3336571891, 3584528711,
  113926993, 338241895, 666307205, 773529912, 1294757372, 1396182291,
  1695183700, 1986661051, 2177026350, 2456956037, 2730485921, 2820302411,
  3259730800, 3345764771, 3516065817, 3600352804, 4094571909, 275423344,
  430227734, 506948616, 659060556, 883997877, 958139571, 1322822218,
  1537002063, 1747873779, 1955562222, 2024104815, 2227730452, 2361852424,
  2428436474, 2756734187, 3204031479, 3329325298]

/-- The eight 32-bit words of a SHA-256 state. -/
structure Hash8 where
  a0 : Nat
  a1 : Nat
  a2 : Nat
  a3 : Nat
  a4 : Nat
  a5 : Nat
  a6 : Nat
  a7 : Nat

/-- SHA-256 initial state (FIPS 180-4, written in decimal). -/
def sha256Init : Hash8 :=
  ⟨1779033703, 3144134277, 1013904242, 2773480762,
   1359893119, 2600822924, 528734635, 1541459225⟩

/-- Big-endian 8-byte rendering of the message bit length. -/
def lenBytes (bits : Nat) : List Nat :=
  [bits / 72057594037927936 % 256, bits / 281474976710656 % 256,
   bits / 1099511627776 % 256, bits / 4294967296 % 256,
   bits / 16777216 % 256, bits / 65536 % 256, bits / 256 % 256, bits % 256]

/-- SHA-256 padding: a 0x80 byte, zero bytes up to 56 mod 64, then the length. -/
def padMessage (msg : List Nat) : List Nat :=
  msg ++ 0x80 :: List.replicate ((119 - msg.length % 64) % 64) 0 ++ lenBytes (msg.length * 8)

/-- Combine bytes into big-endian 32-bit words. -/
def toWords : List Nat → List Nat
  | b0 :: b1 :: b2 :: b3 :: rest => (b0 * 16777216 + b1 * 65536 + b2 * 256 + b3) :: toWords rest
  | _ => []

/-- Extend the 16-word message schedule by k further words. -/
def extendSchedule : List Nat → Nat → List Nat
  | ws, 0 => ws
  | ws, k + 1 =>
      let n := ws.length
      let w := w32 (ssig1 (ws.getD (n - 2) 0) + ws.getD (n - 7) 0 +
        ssig0 (ws.getD (n - 15) 0) + ws.getD (n - 16) 0)
      extendSchedule (ws ++ [w]) k

/-- One SHA-256 round. -/
def sha256Round (W : List Nat) (t : Nat) (s : Hash8) : Hash8 :=
  let t1 := w32 (s.a7 + bsig1 s.a4 + sha2ch s.a4 s.a5 s.a6 + K256.getD t 0 + W.getD t 0)
  let t2 := w32 (bsig0 s.a0 + sha2maj s.a0 s.a1 s.a2)
  ⟨w32 (t1 + t2), s.a0, s.a1, s.a2, w32 (s.a3 + t1), s.a4, s.a5, s.a6⟩

/-- Compress one 64-byte chunk into the running state. -/
def sha256Compress (H : Hash8) (chunk : List Nat) : Hash8 :=
  let W := extendSchedule (toWords chunk) 48
  let s := (List.range 64).foldl (fun st t => sha256Round W t st) H
  ⟨w32 (H.a0 + s.a0), w32 (H.a1 + s.a1), w32 (H.a2 + s.a2), w32 (H.a3 + s.a3),
   w32 (H.a4 + s.a4), w32 (H.a5 + s.a5), w32 (H.a6 + s.a6), w32 (H.a7 + s.a7)⟩

/-- Split a byte list into chunks of 64. -/
def chunks64 (l : List Nat) : List (List Nat) :=
  match l with
  | [] => []
  | x :: xs => (x :: xs).take 64 :: chunks64 ((x :: xs).drop 64)
termination_by l.length
decreasing_by simp [List.length_drop]; omega

/-- SHA-256 state after hashing a byte message. -/
def sha256Words (msg : List Nat) : Hash8 :=
  (chunks64 (padMessage msg)).foldl sha256Compress sha256Init

/-- Big-endian bytes of a 32-bit word. -/
def wordBytes (w : Nat) : List Nat :=
  [w / 16777216 % 256, w / 65536 % 256, w / 256 % 256, w % 256]

/-- The lowercase hexadecimal digits. -/
def hexDigitChars : List Char := ("0123456789abcdef").data

/-- Lowercase hexadecimal digit for a value below 16. -/
def hexDigit (d : Nat) : Char := hexDigitChars.getD d 'x'

/-- Two lowercase hex characters per byte. -/
def bytesToHexChars : List Nat → List Char
  | [] => []
  | b :: bs => hexDigit (b / 16 % 16) :: hexDigit (b % 16) :: bytesToHexChars bs

/-- The 32 output bytes of a SHA-256 state. -/
def outBytes (H : Hash8) : List Nat :=
  wordBytes H.a0 ++ wordBytes H.a1 ++ wordBytes H.a2 ++ wordBytes H.a3 ++
  wordBytes H.a4 ++ wordBytes H.a5 ++ wordBytes H.a6 ++ wordBytes H.a7

/-- SHA-256 of a byte message, rendered as lowercase hex, as produced by
createHash("sha256").update(payload).digest("hex"). -/
def sha256hex (msg : List Nat) : String := String.mk (bytesToHexChars (outBytes (sha256Words msg)))

/-- UTF-8 encoding of a single character. -/
def utf8EncodeChar (c : Char) : List Nat :=
  let n := c.toNat
  if n < 128 then [n]
  else if n < 2048 then [192 + n / 64, 128 + n % 64]
  else if n < 65536 then [224 + n / 4096, 128 + n / 64 % 64, 128 + n % 64]
  else [240 + n / 262144, 128 + n / 4096 % 64, 128 + n / 64 % 64, 128 + n % 64]

/-- UTF-8 encoding of a character list. -/
def utf8Bytes : List Char → List Nat
  | [] => []
  | c :: cs => utf8EncodeChar c ++ utf8Bytes cs

/-! Compact JSON serialization, modelling JSON.stringify. -/

/-- Four lowercase hex characters of a 16-bit value. -/
def hex4 (n : Nat) : List Char :=
  [hexDigit (n / 4096 % 16), hexDigit (n / 256 % 16), hexDigit (n / 16 % 16), hexDigit (n % 16)]

/-- JSON string escaping of one character, as JSON.stringify performs it. -/
def escapeChar (c : Char) : List Char :=
  if c = '"' then ['\\', '"']
  else if c = '\\' then ['\\', '\\']
  else if c = Char.ofNat 8 then ['\\', 'b']
  else if c = Char.ofNat 12 then ['\\', 'f']
  else if c = '\n' then ['\\', 'n']
  else if c = '\r' then ['\\', 'r']
  else if c = '\t' then ['\\', 't']
  else if c.toNat < 32 then '\\' :: 'u' :: hex4 c.toNat
  else [c]

/-- JSON escaping of a character list. -/
def escapeChars : List Char → List Char
  | [] => []
  | c :: cs => escapeChar c ++ escapeChars cs

/-- A quoted, escaped JSON string literal. -/
def quoteChars (s : String) : List Char := '"' :: escapeChars s.data ++ ['"']

mutual
/-- Compact JSON.stringify output as a character list. -/
def jsonStringifyChars : Json → List Char
  | .null => ("null").data
  | .bool true => ("true").data
  | .bool false => ("false").data
  | .num n => (toString n).data
  | .str s => quoteChars s
  | .arr xs => '[' :: commaJoinList xs ++ [']']
  | .obj l => Char.ofNat 123 :: commaJoinPairs l ++ [Char.ofNat 125]

/-- Comma-separated serialization of array elements. -/
def commaJoinList : List Json → List Char
  | [] => []
  | [x] => jsonStringifyChars x
  | x :: y :: rest => jsonStringifyChars x ++ ',' :: commaJoinList (y :: rest)

/-- Comma-separated serialization of object entries. -/
def commaJoinPairs : List (String × Json) → List Char
  | [] => []
  | [(k, v)] => quoteChars k ++ ':' :: jsonStringifyChars v
  | (k, v) :: p :: rest =>
      quoteChars k ++ ':' :: jsonStringifyChars v ++ ',' :: commaJoinPairs (p :: rest)
end

/-- Model of hashToolDefinition (tool-pinning.ts): SHA-256 over the UTF-8
bytes of the compact JSON serialization of the object with the keys name,
description and schema in insertion order, the schema canonicalized by
sortObjectKeys, rendered as lowercase hex. -/
def hashToolDefinition (name description : String) (schema : Json) : String :=
  sha256hex (utf8Bytes (jsonStringifyChars (Json.obj
    [(("name"), .str name), (("description"), .str description),
     (("schema"), sortObjectKeys schema)])))

theorem hexDigit_mem (d : Nat) (h : d < 16) : hexDigit d ∈ hexDigitChars := by
  interval_cases d <;> decide

theorem bytesToHexChars_mem : ∀ (bs : List Nat) (c : Char),
    c ∈ bytesToHexChars bs → c ∈ hexDigitChars
  | [], _, h => by simp [bytesToHexChars] at h
  | b :: bs, c, h => by
      simp only [bytesToHexChars, List.mem_cons] at h
      rcases h with rfl | rfl | h
      · exact hexDigit_mem _ (Nat.mod_lt _ (by omega))
      · exact hexDigit_mem _ (Nat.mod_lt _ (by omega))
      · exact bytesToHexChars_mem bs c h

theorem sha256hex_length (msg : List Nat) : (sha256hex msg).length = 64 := rfl

theorem sha256hex_mem (msg : List Nat) (c : Char) (h : c ∈ (sha256hex msg).data) :
    c ∈ hexDigitChars :=
  bytesToHexChars_mem _ c h

/-- Example schema with unsorted keys, used by witnesses. -/
def exSchema1 : Json :=
  .obj [("b", .num 2), ("a", .obj [("y", .bool true), ("z", .null)])]

/-- The same schema as exSchema1 with object keys in a different order. -/
def exSchema2 : Json :=
  .obj [("a", .obj [("z", .null), ("y", .bool true)]), ("b", .num 2)]

/-- C1: for every name n, description d, and schemas S1 and S2 that are
deep-equal up to recursive reordering of object keys (array order preserved,
keys of each object pairwise distinct), hashToolDefinition n d S1 equals
hashToolDefinition n d S2, and the hash is a 64-character lowercase-hex
rendition of the SHA-256 of the canonicalized triple. -/
theorem C1_fingerprint_stability (n d : String) (S1 S2 : Json)
    (hnodup : keysNodupB S1 = true) (hequiv : jsonEquivB S1 S2 = true) :
    hashToolDefinition n d S1 = hashToolDefinition n d S2 ∧
    (hashToolDefinition n d S1).length = 64 ∧
    ∀ c ∈ (hashToolDefinition n d S1).data, c ∈ hexDigitChars := by
  refine ⟨?_, sha256hex_length _, fun c hc => sha256hex_mem _ c hc⟩
  unfold hashToolDefinition
  rw [sortObjectKeys_eq_of_equiv S1 S2 hnodup hequiv]

/-- Witness for C1 at a concrete reordered schema pair. -/
theorem C1_fingerprint_stability_witness :
    hashToolDefinition ("add") ("Adds two numbers.") exSchema1 =
      hashToolDefinition ("add") ("Adds two numbers.") exSchema2 ∧
    (hashToolDefinition ("add") ("Adds two numbers.") exSchema1).length = 64 ∧
    ∀ c ∈ (hashToolDefinition ("add") ("Adds two numbers.") exSchema1).data,
      c ∈ hexDigitChars :=
  C1_fingerprint_stability ("add") ("Adds two numbers.") exSchema1 exSchema2
    (by decide) (by decide)

/-! Tool pinning data model (tool-pinning.ts).  The file system is abstracted
to the parsed manifest value; JavaScript objects become association lists in
key insertion order. -/

/-- A tool definition received from an MCP server. -/
structure ToolDefinition where
  name : String
  description : String
  schema : Json
deriving DecidableEq

/-- A pinned fingerprint entry for one tool. -/
structure ToolPinEntry where
  hash : String
  descriptionLength : Nat
  parameterCount : Nat
  pinnedAt : String
deriving DecidableEq

/-- Manifest entry for one server. -/
structure ServerManifestEntry where
  pinnedAt : String
  tools : List (String × ToolPinEntry)
deriving DecidableEq

/-- The multi-server tool manifest; the format field models the format tag. -/
structure ToolManifest where
  version : String
  format : String
  servers : List (String × ServerManifestEntry)
deriving DecidableEq

/-- Lookup in a JavaScript-object association list. -/
def objLookup {α : Type} (l : List (String × α)) (k : String) : Option α :=
  match l with
  | [] => none
  | (k2, v) :: rest => if k2 = k then some v else objLookup rest k

/-- JavaScript object assignment: replacing an existing key keeps its
position, a new key is appended. -/
def objInsert {α : Type} (l : List (String × α)) (k : String) (v : α) : List (String × α) :=
  match l with
  | [] => [(k, v)]
  | (k2, v2) :: rest => if k2 = k then (k2, v) :: rest else (k2, v2) :: objInsert rest k v

/-- Model of countParameters: top-level key count of the schema, 0 for
non-objects (array indices count as keys, as Object.keys does). -/
def countParameters : Json → Nat
  | .arr l => l.length
  | .obj l => l.length
  | _ => 0

/-- The pin entry recorded for one tool at time now. -/
def mkPinEntry (t : ToolDefinition) (now : String) : ToolPinEntry :=
  { hash := hashToolDefinition t.name t.description t.schema,
    descriptionLength := t.description.length,
    parameterCount := countParameters t.schema,
    pinnedAt := now }

/-- Model of createServerEntry: pin entries for every tool, keyed by name. -/
def createServerEntry (tools : List ToolDefinition) (now : String) : ServerManifestEntry :=
  { pinnedAt := now,
    tools := tools.foldl (fun acc t => objInsert acc t.name (mkPinEntry t now)) [] }

/-- Model of createToolManifest. -/
def createToolManifest (tools : List ToolDefinition) (serverName : String)
    (now version : String) : ToolManifest :=
  { version := version, format := ("multi-server"),
    servers := [(serverName, createServerEntry tools now)] }

/-- Verification status of verifyToolDefinitions. -/
inductive VerifyStatus where
  | created
  | verified
  | changed
deriving DecidableEq

/-- Result of verifyToolDefinitions.  The human-readable message string of the
source is omitted; the three difference lists are kept as plain lists (the
source leaves them undefined when empty). -/
structure PinningResult where
  status : VerifyStatus
  changedTools : List String
  newTools : List String
  removedTools : List String
deriving DecidableEq

/-- Names of current tools absent from the stored entry. -/
def newToolsOf (tools : List ToolDefinition) (entry : ServerManifestEntry) : List String :=
  (tools.filter (fun t => (objLookup entry.tools t.name).isNone)).map (fun t => t.name)

/-- Names of current tools whose recomputed hash differs from the stored one. -/
def changedToolsOf (tools : List ToolDefinition) (entry : ServerManifestEntry) : List String :=
  tools.filterMap (fun t =>
    match objLookup entry.tools t.name with
    | none => none
    | some pe =>
        if hashToolDefinition t.name t.description t.schema ≠ pe.hash then some t.name
        else none)

/-- Stored tool names absent from the current tools. -/
def removedToolsOf (tools : List ToolDefinition) (entry : ServerManifestEntry) : List String :=
  (entry.tools.map Prod.fst).filter (fun k => !(tools.map (fun t => t.name)).contains k)

/-- Model of verifyToolDefinitions: loads the manifest (already parsed),
creates or classifies, and returns the result with the possibly saved
manifest state. -/
def verifyToolDefinitions (tools : List ToolDefinition) (serverName : String)
    (now version : String) (manifest : Option ToolManifest) :
    PinningResult × Option ToolManifest :=
  match manifest with
  | none =>
      let m := createToolManifest tools serverName now version
      ({ status := .created, changedTools := [], newTools := [], removedTools := [] }, some m)
  | some m =>
      match objLookup m.servers serverName with
      | none =>
          let m2 : ToolManifest :=
            { m with servers := objInsert m.servers serverName (createServerEntry tools now),
                     version := version }
          ({ status := .created, changedTools := [], newTools := [], removedTools := [] },
            some m2)
      | some entry =>
          let ch := changedToolsOf tools entry
          let nw := newToolsOf tools entry
          let rm := removedToolsOf tools entry
          if ch.isEmpty ∧ nw.isEmpty ∧ rm.isEmpty then
            ({ status := .verified, changedTools := [], newTools := [], removedTools := [] },
              some m)
          else
            ({ status := .changed, changedTools := ch, newTools := nw, removedTools := rm },
              some m)

/-- Per-tool diff entry of getToolDiff. -/
structure ToolDiffEntry where
  name : String
  previousDescriptionLength : Nat
  currentDescriptionLength : Nat
  previousHash : String
  currentHash : String
  previousPinnedAt : String
deriving DecidableEq

/-- Result of getToolDiff. -/
structure ToolDiff where
  serverName : String
  added : List String
  removed : List String
  changed : List ToolDiffEntry
  unchanged : Nat
  manifestExists : Bool
  serverExists : Bool
deriving DecidableEq

/-- Diff entries for current tools whose recomputed hash differs. -/
def changedEntriesOf (tools : List ToolDefinition) (entry : ServerManifestEntry) :
    List ToolDiffEntry :=
  tools.filterMap (fun t =>
    match objLookup entry.tools t.name with
    | none => none
    | some pe =>
        let currentHash := hashToolDefinition t.name t.description t.schema
        if currentHash ≠ pe.hash then
          some { name := t.name,
                 previousDescriptionLength := pe.descriptionLength,
                 currentDescriptionLength := t.description.length,
                 previousHash := pe.hash,
                 currentHash := currentHash,
                 previousPinnedAt := pe.pinnedAt }
        else none)

/-- Count of current tools present in the stored entry with matching hash. -/
def unchangedCountOf (tools : List ToolDefinition) (entry : ServerManifestEntry) : Nat :=
  (tools.filter (fun t =>
    match objLookup entry.tools t.name with
    | none => false
    | some pe => hashToolDefinition t.name t.description t.schema = pe.hash)).length

/-- Model of getToolDiff: the read-only counterpart of verify.  The second
component is the manifest state after the call. -/
def getToolDiff (tools : List ToolDefinition) (serverName : String)
    (manifest : Option ToolManifest) : ToolDiff × Option ToolManifest :=
  match manifest with
  | none =>
      ({ serverName := serverName, added := tools.map (fun t => t.name), removed := [],
         changed := [], unchanged := 0, manifestExists := false, serverExists := false },
        none)
  | some m =>
      match objLookup m.servers serverName with
      | none =>
          ({ serverName := serverName, added := tools.map (fun t => t.name), removed := [],
             changed := [], unchanged := 0, manifestExists := true, serverExists := false },
            some m)
      | some entry =>
          ({ serverName := serverName,
             added := newToolsOf tools entry,
             removed := removedToolsOf tools entry,
             changed := changedEntriesOf tools entry,
             unchanged := unchangedCountOf tools entry,
             manifestExists := true, serverExists := true },
            some m)

theorem objInsert_append {α : Type} : ∀ (acc : List (String × α)) (k : String) (v : α),
    k ∉ acc.map Prod.fst → objInsert acc k v = acc ++ [(k, v)]
  | [], _, _, _ => rfl
  | (k2, v2) :: rest, k, v, h => by
      have h2 : ¬(k = k2 ∨ k ∈ rest.map Prod.fst) := by simpa using h
      push_neg at h2
      have hne : k2 ≠ k := fun he => h2.1 he.symm
      simp only [objInsert, if_neg hne, List.cons_append, List.cons.injEq, true_and]
      exact objInsert_append rest k v h2.2

theorem foldl_objInsert_eq_append :
    ∀ (tools : List ToolDefinition) (now : String) (acc : List (String × ToolPinEntry)),
    (∀ t ∈ tools, t.name ∉ acc.map Prod.fst) →
    (tools.map (fun t => t.name)).Nodup →
    tools.foldl (fun acc t => objInsert acc t.name (mkPinEntry t now)) acc =
      acc ++ tools.map (fun t => (t.name, mkPinEntry t now))
  | [], _, acc, _, _ => by simp
  | t :: ts, now, acc, hdisj, hnd => by
      have hhead := List.nodup_cons.mp hnd
      simp only [List.foldl_cons]
      rw [objInsert_append acc t.name _ (hdisj t (List.mem_cons_self t ts))]
      rw [foldl_objInsert_eq_append ts now (acc ++ [(t.name, mkPinEntry t now)]) ?_ hhead.2]
      · simp
      · intro u hu
        simp only [List.map_append, List.mem_append, List.map_cons, List.map_nil,
          List.mem_singleton, not_or]
        refine ⟨hdisj u (List.mem_cons_of_mem t hu), fun he => ?_⟩
        exact hhead.1 (List.mem_map.mpr ⟨u, hu, he⟩)

theorem createServerEntry_tools (tools : List ToolDefinition) (now : String)
    (hnd : (tools.map (fun t => t.name)).Nodup) :
    (createServerEntry tools now).tools = tools.map (fun t => (t.name, mkPinEntry t now)) := by
  unfold createServerEntry
  simpa using foldl_objInsert_eq_append tools now [] (by simp) hnd

theorem objLookup_map_self {α : Type} :
    ∀ (tools : List ToolDefinition) (f : ToolDefinition → α) (t : ToolDefinition),
    t ∈ tools → (tools.map (fun u => u.name)).Nodup →
    objLookup (tools.map (fun u => (u.name, f u))) t.name = some (f t)
  | [], _, _, h, _ => absurd h (List.not_mem_nil _)
  | u :: ts, f, t, h, hnd => by
      have hhead := List.nodup_cons.mp hnd
      rcases List.mem_cons.mp h with rfl | h2
      · simp [objLookup]
      · have hne : u.name ≠ t.name := fun he =>
          hhead.1 (List.mem_map.mpr ⟨t, h2, he.symm⟩)
        simp only [List.map_cons, objLookup, if_neg hne]
        exact objLookup_map_self ts f t h2 hhead.2

theorem newToolsOf_eq_nil_iff (tools : List ToolDefinition) (entry : ServerManifestEntry) :
    newToolsOf tools entry = [] ↔
      ∀ t ∈ tools, (objLookup entry.tools t.name).isSome := by
  unfold newToolsOf
  rw [List.map_eq_nil_iff, List.filter_eq_nil_iff]
  constructor
  · intro h t ht
    have h1 := h t ht
    cases hl : objLookup entry.tools t.name with
    | none => rw [hl] at h1; simp at h1
    | some pe => simp
  · intro h t ht
    have h1 := h t ht
    cases hl : objLookup entry.tools t.name with
    | none => rw [hl] at h1; simp at h1
    | some pe => simp [hl]

theorem changedToolsOf_eq_nil_iff (tools : List ToolDefinition) (entry : ServerManifestEntry) :
    changedToolsOf tools entry = [] ↔
      ∀ t ∈ tools, ∀ pe, objLookup entry.tools t.name = some pe →
        hashToolDefinition t.name t.description t.schema = pe.hash := by
  unfold changedToolsOf
  rw [List.filterMap_eq_nil_iff]
  constructor
  · intro h t ht pe hpe
    have := h t ht
    rw [hpe] at this
    by_contra hne
    simp [hne] at this
  · intro h t ht
    cases hpe : objLookup entry.tools t.name with
    | none => rfl
    | some pe => simp [h t ht pe hpe]

theorem removedToolsOf_eq_nil_iff (tools : List ToolDefinition) (entry : ServerManifestEntry) :
    removedToolsOf tools entry = [] ↔
      ∀ k ∈ entry.tools.map Prod.fst, k ∈ tools.map (fun t => t.name) := by
  unfold removedToolsOf
  rw [List.filter_eq_nil_iff]
  constructor
  · intro h k hk
    have := h k hk
    simpa [List.contains, List.elem_iff] using this
  · intro h k hk
    simpa [List.contains, List.elem_iff] using h k hk

/-- C2: verify lifecycle.  With no manifest, or with the server absent, verify
returns created and persists the new entry; with the server entry present it
returns verified exactly when every current tool is stored with a matching
hash and every stored tool is still current; verifying twice in a row from an
empty state with an unchanged tool list yields created then verified. -/
theorem C2_verify_lifecycle (tools : List ToolDefinition) (s now now2 v v2 : String)
    (hnd : (tools.map (fun t => t.name)).Nodup) :
    ((verifyToolDefinitions tools s now v none).1.status = .created ∧
      (verifyToolDefinitions tools s now v none).2 =
        some (createToolManifest tools s now v)) ∧
    (∀ m : ToolManifest, objLookup m.servers s = none →
      (verifyToolDefinitions tools s now v (some m)).1.status = .created ∧
      (verifyToolDefinitions tools s now v (some m)).2 =
        some { m with servers := objInsert m.servers s (createServerEntry tools now),
                      version := v }) ∧
    (∀ (m : ToolManifest) (entry : ServerManifestEntry),
      objLookup m.servers s = some entry →
      ((verifyToolDefinitions tools s now v (some m)).1.status = .verified ↔
        (∀ t ∈ tools, ∃ pe, objLookup entry.tools t.name = some pe ∧
            hashToolDefinition t.name t.description t.schema = pe.hash) ∧
        (∀ k ∈ entry.tools.map Prod.fst, k ∈ tools.map (fun t => t.name)))) ∧
    ((verifyToolDefinitions tools s now v none).1.status = .created ∧
      (verifyToolDefinitions tools s now2 v2
        ((verifyToolDefinitions tools s now v none).2)).1.status = .verified) := by
  have hcases : ∀ (entry : ServerManifestEntry) (m : ToolManifest),
      objLookup m.servers s = some entry →
      ((verifyToolDefinitions tools s now2 v2 (some m)).1.status = .verified ↔
        (changedToolsOf tools entry).isEmpty ∧ (newToolsOf tools entry).isEmpty ∧
        (removedToolsOf tools entry).isEmpty) := by
    intro entry m he
    simp only [verifyToolDefinitions, he]
    split
    · next hcond => simpa using hcond
    · next hcond => simpa using hcond
  refine ⟨⟨rfl, rfl⟩, ?_, ?_, ?_⟩
  · intro m hm
    simp [verifyToolDefinitions, hm]
  · intro m entry he
    simp only [verifyToolDefinitions, he]
    have hsem : ((changedToolsOf tools entry).isEmpty ∧ (newToolsOf tools entry).isEmpty ∧
        (removedToolsOf tools entry).isEmpty) ↔
        ((∀ t ∈ tools, ∃ pe, objLookup entry.tools t.name = some pe ∧
            hashToolDefinition t.name t.description t.schema = pe.hash) ∧
        (∀ k ∈ entry.tools.map Prod.fst, k ∈ tools.map (fun t => t.name))) := by
      rw [List.isEmpty_iff, List.isEmpty_iff, List.isEmpty_iff,
        changedToolsOf_eq_nil_iff, newToolsOf_eq_nil_iff, removedToolsOf_eq_nil_iff]
      constructor
      · rintro ⟨hch, hnw, hrm⟩
        refine ⟨fun t ht => ?_, hrm⟩
        rcases Option.isSome_iff_exists.mp (hnw t ht) with ⟨pe, hpe⟩
        exact ⟨pe, hpe, hch t ht pe hpe⟩
      · rintro ⟨hfit, hrm⟩
        refine ⟨fun t ht pe hpe => ?_, fun t ht => ?_, hrm⟩
        · rcases hfit t ht with ⟨pe2, hpe2, hh⟩
          rw [hpe] at hpe2
          cases hpe2
          exact hh
        · rcases hfit t ht with ⟨pe2, hpe2, _⟩
          simp [hpe2]
    split
    · next hcond => exact iff_of_true rfl (hsem.mp hcond)
    · next hcond =>
        exact iff_of_false (by simp) (fun hsemr => hcond (hsem.mpr hsemr))
  · refine ⟨rfl, ?_⟩
    have hm1 : (verifyToolDefinitions tools s now v none).2 =
        some (createToolManifest tools s now v) := rfl
    rw [hm1]
    have hlook : objLookup (createToolManifest tools s now v).servers s =
        some (createServerEntry tools now) := by
      simp [createToolManifest, objLookup]
    rw [hcases (createServerEntry tools now) _ hlook]
    have htools := createServerEntry_tools tools now hnd
    refine ⟨?_, ?_, ?_⟩
    · rw [List.isEmpty_iff, changedToolsOf_eq_nil_iff]
      intro t ht pe hpe
      rw [htools, objLookup_map_self tools _ t ht hnd] at hpe
      cases hpe
      rfl
    · rw [List.isEmpty_iff, newToolsOf_eq_nil_iff]
      intro t ht
      rw [htools, objLookup_map_self tools _ t ht hnd]
      rfl
    · rw [List.isEmpty_iff, removedToolsOf_eq_nil_iff]
      intro k hk
      rw [htools, List.map_map] at hk
      simpa using hk

/-- Example tool list used by witnesses. -/
def exTools : List ToolDefinition :=
  [{ name := ("add"), description := ("Adds two numbers."), schema := exSchema1 },
   { name := ("ping"), description := ("Health check."), schema := .obj [] }]

/-- Witness for C2: created then verified on a concrete two-tool list. -/
theorem C2_verify_lifecycle_witness :
    ((verifyToolDefinitions exTools ("srv") ("t0") ("1.0") none).1.status = .created ∧
      (verifyToolDefinitions exTools ("srv") ("t0") ("1.0") none).2 =
        some (createToolManifest exTools ("srv") ("t0") ("1.0"))) ∧
    ((verifyToolDefinitions exTools ("srv") ("t0") ("1.0") none).1.status = .created ∧
      (verifyToolDefinitions exTools ("srv") ("t1") ("1.1")
        ((verifyToolDefinitions exTools ("srv") ("t0") ("1.0") none).2)).1.status =
          .verified) := by
  have h := C2_verify_lifecycle exTools ("srv") ("t0") ("t1") ("1.0") ("1.1") (by decide)
  exact ⟨h.1, h.2.2.2⟩

theorem changedEntries_names : ∀ (tools : List ToolDefinition) (entry : ServerManifestEntry),
    (changedEntriesOf tools entry).map (fun e => e.name) = changedToolsOf tools entry
  | [], _ => rfl
  | t :: ts, entry => by
      simp only [changedEntriesOf, changedToolsOf, List.filterMap_cons]
      cases objLookup entry.tools t.name with
      | none =>
          simpa [changedEntriesOf, changedToolsOf] using changedEntries_names ts entry
      | some pe =>
          by_cases h : hashToolDefinition t.name t.description t.schema = pe.hash
          · simpa [changedEntriesOf, changedToolsOf, h] using changedEntries_names ts entry
          · simpa [changedEntriesOf, changedToolsOf, h] using changedEntries_names ts entry

theorem diff_counts (entry : ServerManifestEntry) : ∀ tools : List ToolDefinition,
    (newToolsOf tools entry).length + (changedEntriesOf tools entry).length +
      unchangedCountOf tools entry = tools.length := by
  intro tools
  induction tools with
  | nil => rfl
  | cons t ts ih =>
      unfold newToolsOf changedEntriesOf unchangedCountOf at ih ⊢
      cases hl : objLookup entry.tools t.name with
      | none =>
          simp only [List.filter_cons, List.filterMap_cons, hl]
          simp at ih ⊢
          omega
      | some pe =>
          by_cases h : hashToolDefinition t.name t.description t.schema = pe.hash
          · simp only [List.filter_cons, List.filterMap_cons, hl]
            simp [h] at ih ⊢
            omega
          · simp only [List.filter_cons, List.filterMap_cons, hl]
            simp [h] at ih ⊢
            omega

theorem kept_counts (entry : ServerManifestEntry) : ∀ tools : List ToolDefinition,
    (changedEntriesOf tools entry).length + unchangedCountOf tools entry =
      (tools.filter (fun t => (objLookup entry.tools t.name).isSome)).length := by
  intro tools
  induction tools with
  | nil => rfl
  | cons t ts ih =>
      unfold changedEntriesOf unchangedCountOf at ih ⊢
      cases hl : objLookup entry.tools t.name with
      | none =>
          simp only [List.filter_cons, List.filterMap_cons, hl]
          simp at ih ⊢
          omega
      | some pe =>
          by_cases h : hashToolDefinition t.name t.description t.schema = pe.hash
          · simp only [List.filter_cons, List.filterMap_cons, hl]
            simp [h] at ih ⊢
            omega
          · simp only [List.filter_cons, List.filterMap_cons, hl]
            simp [h] at ih ⊢
            omega

theorem mem_newToolsOf (tools : List ToolDefinition) (entry : ServerManifestEntry)
    (x : String) (hx : x ∈ newToolsOf tools entry) :
    (∃ t ∈ tools, t.name = x) ∧ objLookup entry.tools x = none := by
  unfold newToolsOf at hx
  rcases List.mem_map.mp hx with ⟨t, ht, rfl⟩
  rcases List.mem_filter.mp ht with ⟨htools, hnone⟩
  refine ⟨⟨t, htools, rfl⟩, ?_⟩
  cases hl : objLookup entry.tools t.name with
  | none => rfl
  | some pe => rw [hl] at hnone; simp at hnone

theorem mem_changedToolsOf (tools : List ToolDefinition) (entry : ServerManifestEntry)
    (x : String) (hx : x ∈ changedToolsOf tools entry) :
    (∃ t ∈ tools, t.name = x) ∧ (objLookup entry.tools x).isSome := by
  unfold changedToolsOf at hx
  rcases List.mem_filterMap.mp hx with ⟨t, ht, hf⟩
  cases hl : objLookup entry.tools t.name with
  | none => rw [hl] at hf; simp at hf
  | some pe =>
      rw [hl] at hf
      by_cases h : hashToolDefinition t.name t.description t.schema = pe.hash
      · simp [h] at hf
      · simp only [h, if_pos, ne_eq, not_false_iff, Option.some.injEq, if_true] at hf
        subst hf
        exact ⟨⟨t, ht, rfl⟩, by simp [hl]⟩

theorem mem_removedToolsOf (tools : List ToolDefinition) (entry : ServerManifestEntry)
    (x : String) (hx : x ∈ removedToolsOf tools entry) :
    x ∈ entry.tools.map Prod.fst ∧ x ∉ tools.map (fun t => t.name) := by
  unfold removedToolsOf at hx
  rcases List.mem_filter.mp hx with ⟨hmem, hnc⟩
  refine ⟨hmem, fun hin => ?_⟩
  simp only [Bool.not_eq_true', ← Bool.not_eq_true, List.contains, List.elem_iff] at hnc
  exact hnc hin

/-- C3: getToolDiff is the read-only counterpart of verifyToolDefinitions:
identical classification of added, changed and removed tools, categories
pairwise disjoint and jointly exhaustive, unchanged equal to kept minus
modified, and no mutation of the manifest. -/
theorem C3_diff_matches_verify (tools : List ToolDefinition) (s now v : String)
    (m : ToolManifest) (entry : ServerManifestEntry)
    (hnd : (tools.map (fun t => t.name)).Nodup)
    (he : objLookup m.servers s = some entry) :
    ((getToolDiff tools s (some m)).1.added =
        (verifyToolDefinitions tools s now v (some m)).1.newTools ∧
      (getToolDiff tools s (some m)).1.changed.map (fun e => e.name) =
        (verifyToolDefinitions tools s now v (some m)).1.changedTools ∧
      (getToolDiff tools s (some m)).1.removed =
        (verifyToolDefinitions tools s now v (some m)).1.removedTools) ∧
    ((getToolDiff tools s (some m)).1.added.length +
        (getToolDiff tools s (some m)).1.changed.length +
        (getToolDiff tools s (some m)).1.unchanged = tools.length) ∧
    ((getToolDiff tools s (some m)).1.unchanged =
      (tools.filter (fun t => (objLookup entry.tools t.name).isSome)).length -
        (getToolDiff tools s (some m)).1.changed.length) ∧
    (∀ x ∈ (getToolDiff tools s (some m)).1.added,
       x ∉ (getToolDiff tools s (some m)).1.changed.map (fun e => e.name) ∧
       x ∉ (getToolDiff tools s (some m)).1.removed) ∧
    (∀ x ∈ (getToolDiff tools s (some m)).1.changed.map (fun e => e.name),
       x ∉ (getToolDiff tools s (some m)).1.removed) ∧
    (getToolDiff tools s (some m)).2 = some m := by
  have hadded : (getToolDiff tools s (some m)).1.added = newToolsOf tools entry := by
    simp [getToolDiff, he]
  have hchanged : (getToolDiff tools s (some m)).1.changed = changedEntriesOf tools entry := by
    simp [getToolDiff, he]
  have hremoved : (getToolDiff tools s (some m)).1.removed = removedToolsOf tools entry := by
    simp [getToolDiff, he]
  have hunch : (getToolDiff tools s (some m)).1.unchanged = unchangedCountOf tools entry := by
    simp [getToolDiff, he]
  have hstate : (getToolDiff tools s (some m)).2 = some m := by
    simp [getToolDiff, he]
  have hver : (verifyToolDefinitions tools s now v (some m)).1.newTools =
        newToolsOf tools entry ∧
      (verifyToolDefinitions tools s now v (some m)).1.changedTools =
        changedToolsOf tools entry ∧
      (verifyToolDefinitions tools s now v (some m)).1.removedTools =
        removedToolsOf tools entry := by
    simp only [verifyToolDefinitions, he]
    split
    · next hcond =>
        rcases hcond with ⟨hch, hnw, hrm⟩
        rw [List.isEmpty_iff] at hch hnw hrm
        exact ⟨hnw.symm, hch.symm, hrm.symm⟩
    · next => exact ⟨rfl, rfl, rfl⟩
  refine ⟨⟨?_, ?_, ?_⟩, ?_, ?_, ?_, ?_, hstate⟩
  · rw [hadded, hver.1]
  · rw [hchanged, hver.2.1, changedEntries_names]
  · rw [hremoved, hver.2.2]
  · rw [hadded, hchanged, hunch]
    exact diff_counts entry tools
  · rw [hchanged, hunch]
    have := kept_counts entry tools
    omega
  · intro x hx
    rw [hadded] at hx
    rcases mem_newToolsOf tools entry x hx with ⟨⟨t, ht, hname⟩, hnone⟩
    constructor
    · rw [hchanged, changedEntries_names]
      intro hc
      rcases mem_changedToolsOf tools entry x hc with ⟨_, hsome⟩
      rw [hnone] at hsome
      simp at hsome
    · rw [hremoved]
      intro hr
      rcases mem_removedToolsOf tools entry x hr with ⟨_, hnotin⟩
      exact hnotin (List.mem_map.mpr ⟨t, ht, hname⟩)
  · intro x hx
    rw [hchanged, changedEntries_names] at hx
    rcases mem_changedToolsOf tools entry x hx with ⟨⟨t, ht, hname⟩, _⟩
    rw [hremoved]
    intro hr
    rcases mem_removedToolsOf tools entry x hr with ⟨_, hnotin⟩
    exact hnotin (List.mem_map.mpr ⟨t, ht, hname⟩)

/-- Example manifest used by witnesses: exTools pinned under the server srv. -/
def exManifest : ToolManifest := createToolManifest exTools ("srv") ("t0") ("1.0")

/-- Witness for C3 at a concrete manifest and tool list. -/
theorem C3_diff_matches_verify_witness :
    ((getToolDiff exTools ("srv") (some exManifest)).1.added =
        (verifyToolDefinitions exTools ("srv") ("t1") ("1.1")
          (some exManifest)).1.newTools ∧
      (getToolDiff exTools ("srv") (some exManifest)).1.changed.map (fun e => e.name) =
        (verifyToolDefinitions exTools ("srv") ("t1") ("1.1")
          (some exManifest)).1.changedTools ∧
      (getToolDiff exTools ("srv") (some exManifest)).1.removed =
        (verifyToolDefinitions exTools ("srv") ("t1") ("1.1")
          (some exManifest)).1.removedTools) ∧
    ((getToolDiff exTools ("srv") (some exManifest)).1.added.length +
        (getToolDiff exTools ("srv") (some exManifest)).1.changed.length +
        (getToolDiff exTools ("srv") (some exManifest)).1.unchanged = exTools.length) ∧
    (getToolDiff exTools ("srv") (some exManifest)).2 = some exManifest := by
  have h := C3_diff_matches_verify exTools ("srv") ("t1") ("1.1") exManifest
    (createServerEntry exTools ("t0")) (by decide)
    (by simp [exManifest, createToolManifest, objLookup])
  exact ⟨h.1, h.2.1, h.2.2.2.2.2⟩

/-! Legacy manifest migration (tool-pinning.ts, loadToolManifest and
migrateLegacyManifest). -/

/-- The legacy single-server manifest shape: bare server name plus flat tool
map, no format tag. -/
structure LegacyToolManifest where
  version : String
  server : String
  pinnedAt : String
  tools : List (String × ToolPinEntry)
deriving DecidableEq

/-- Model of migrateLegacyManifest: upgrade to the multi-server shape, the
per-tool entries carried verbatim. -/
def migrateLegacyManifest (legacy : LegacyToolManifest) : ToolManifest :=
  { version := legacy.version, format := ("multi-server"),
    servers := [(legacy.server, { pinnedAt := legacy.pinnedAt, tools := legacy.tools })] }

/-- On-disk manifest content after JSON parsing: either the legacy shape
(recognized by isLegacyManifest as having a server string, a tools object and
no format tag) or the modern shape. -/
inductive DiskManifest where
  | legacy (l : LegacyToolManifest)
  | modern (m : ToolManifest)
deriving DecidableEq

/-- Model of loadToolManifest: detects the legacy shape, migrates it and
immediately persists the upgraded form; a modern manifest must carry the
multi-server format tag, anything else degrades to no manifest.  Returns the
loaded manifest and the resulting on-disk state. -/
def loadToolManifest : Option DiskManifest → Option ToolManifest × Option DiskManifest
  | none => (none, none)
  | some (.legacy l) =>
      let m := migrateLegacyManifest l
      (some m, some (.modern m))
  | some (.modern m) =>
      if m.format = ("multi-server") then (some m, some (.modern m))
      else (none, some (.modern m))

/-- C4: loading a legacy manifest yields a multi-server manifest whose single
server entry carries exactly the legacy per-item entries (identical hashes),
immediately persisted; re-loading the migrated form is a migration no-op with
the same entries. -/
theorem C4_legacy_migration (l : LegacyToolManifest) :
    loadToolManifest (some (.legacy l)) =
      (some (migrateLegacyManifest l), some (.modern (migrateLegacyManifest l))) ∧
    objLookup (migrateLegacyManifest l).servers l.server =
      some { pinnedAt := l.pinnedAt, tools := l.tools } ∧
    (∀ nm, ((migrateLegacyManifest l).servers.map
        (fun p => objLookup p.2.tools nm)) = [objLookup l.tools nm]) ∧
    loadToolManifest (loadToolManifest (some (.legacy l))).2 =
      (some (migrateLegacyManifest l), some (.modern (migrateLegacyManifest l))) := by
  refine ⟨rfl, by simp [migrateLegacyManifest, objLookup], fun nm => ?_, ?_⟩
  · simp [migrateLegacyManifest]
  · simp [loadToolManifest, migrateLegacyManifest]

/-! Description scanner (patterns.ts).  The JavaScript regular-expression
engine is abstracted: each detection pattern carries a matcher function that
enumerates the non-overlapping matches (matched text and position) its global
regex produces on a text. -/

/-- Severity of a detection pattern or finding. -/
inductive Severity where
  | critical
  | warning
  | info
deriving DecidableEq

/-- Status of a scan result. -/
inductive ScanStatus where
  | clean
  | warning
  | critical
deriving DecidableEq

/-- A detection pattern: its identifier, severity, and the matches its regex
yields on a given text. -/
structure DetectionPattern where
  pattern : String
  severity : Severity
  matcher : String → List (String × Nat)

/-- One finding: pattern id, severity, matched text and position. -/
structure ScanIssue where
  pattern : String
  severity : Severity
  matchText : String
  position : Nat
deriving DecidableEq

/-- Result of scanning one tool description. -/
structure ToolScanResult where
  toolName : String
  status : ScanStatus
  issues : List ScanIssue
deriving DecidableEq

/-- Substring test on character lists, modelling String.prototype.includes. -/
def isPrefixList : List Char → List Char → Bool
  | [], _ => true
  | _ :: _, [] => false
  | a :: as, b :: bs => a == b && isPrefixList as bs

/-- Does the needle occur inside the haystack. -/
def isInfixList (needle : List Char) : List Char → Bool
  | [] => isPrefixList needle []
  | c :: rest => isPrefixList needle (c :: rest) || isInfixList needle rest

/-- String.prototype.includes: sub occurs inside s. -/
def strIncludes (s sub : String) : Bool := isInfixList sub.data s.data

/-- Model of setAllowlist: phrases are stored lowercased. -/
def setAllowlist (phrases : List String) : List String := phrases.map (fun p => p.toLower)

/-- Model of isAllowlisted: the lowercased match contains an allowlisted
phrase or is contained within one. -/
def isAllowlisted (allowlist : List String) (m : String) : Bool :=
  allowlist.any (fun phrase =>
    strIncludes (m.toLower) phrase || strIncludes phrase (m.toLower))

/-- Findings one pattern contributes: every match becomes an issue unless it
is allowlisted. -/
def collectIssues (allowlist : List String) (p : DetectionPattern)
    (description : String) : List ScanIssue :=
  (p.matcher description).filterMap (fun md =>
    if isAllowlisted allowlist md.1 then none
    else some { pattern := p.pattern, severity := p.severity,
                matchText := md.1, position := md.2 })

/-- All findings of the active patterns, in pattern order then match order. -/
def scanIssuesOf (allowlist : List String) (pats : List DetectionPattern)
    (description : String) : List ScanIssue :=
  match pats with
  | [] => []
  | p :: rest => collectIssues allowlist p description ++ scanIssuesOf allowlist rest description

/-- Model of scanToolDescription: all findings of the active patterns with
allowlist suppression, status critical if any critical finding, else warning
if any warning finding, else clean. -/
def scanToolDescription (allowlist : List String) (pats : List DetectionPattern)
    (name description : String) : ToolScanResult :=
  let issues := scanIssuesOf allowlist pats description
  let status : ScanStatus :=
    if issues.any (fun i => i.severity == .critical) then .critical
    else if issues.any (fun i => i.severity == .warning) then .warning
    else .clean
  { toolName := name, status := status, issues := issues }

/-- Model of isDescriptionSafe: no critical findings in the description. -/
def isDescriptionSafe (allowlist : List String) (pats : List DetectionPattern)
    (description : String) : Bool :=
  !((scanToolDescription allowlist pats ("_check") description).status == .critical)

theorem scanIssues_not_allowlisted : ∀ (allow : List String) (pats : List DetectionPattern)
    (desc : String) (i : ScanIssue), i ∈ scanIssuesOf allow pats desc →
    isAllowlisted allow i.matchText = false
  | allow, [], desc, i, h => by simp [scanIssuesOf] at h
  | allow, p :: rest, desc, i, h => by
      simp only [scanIssuesOf, List.mem_append] at h
      rcases h with h | h
      · unfold collectIssues at h
        rcases List.mem_filterMap.mp h with ⟨md, _, hf⟩
        by_cases ha : isAllowlisted allow md.1 = true
        · simp [ha] at hf
        · simp only [Bool.not_eq_true] at ha
          rw [if_neg (by simp [ha])] at hf
          cases hf
          exact ha
      · exact scanIssues_not_allowlisted allow rest desc i h

theorem mem_scanIssues_of_match : ∀ (allow : List String) (pats : List DetectionPattern)
    (desc : String) (p : DetectionPattern) (m : String) (pos : Nat),
    p ∈ pats → (m, pos) ∈ p.matcher desc → isAllowlisted allow m = false →
    ({ pattern := p.pattern, severity := p.severity, matchText := m, position := pos } :
      ScanIssue) ∈ scanIssuesOf allow pats desc
  | allow, [], desc, p, m, pos, hp, _, _ => absurd hp (List.not_mem_nil p)
  | allow, q :: rest, desc, p, m, pos, hp, hm, ha => by
      simp only [scanIssuesOf, List.mem_append]
      rcases List.mem_cons.mp hp with rfl | hp2
      · left
        unfold collectIssues
        exact List.mem_filterMap.mpr ⟨(m, pos), hm, by rw [if_neg (by simp [ha])]⟩
      · right
        exact mem_scanIssues_of_match allow rest desc p m pos hp2 hm ha

/-- C5: a pattern match is omitted from the scan result exactly when, after
lowercasing, the matched text contains some allowlisted phrase or is
contained within some allowlisted phrase. -/
theorem C5_allowlist_suppression (phrases : List String) (pats : List DetectionPattern)
    (p : DetectionPattern) (name desc m : String) (pos : Nat)
    (hp : p ∈ pats) (hm : (m, pos) ∈ p.matcher desc) :
    ({ pattern := p.pattern, severity := p.severity, matchText := m, position := pos } :
        ScanIssue) ∈ (scanToolDescription (setAllowlist phrases) pats name desc).issues
      ↔ ¬ ∃ phrase ∈ phrases, strIncludes (m.toLower) (phrase.toLower) = true ∨
          strIncludes (phrase.toLower) (m.toLower) = true := by
  have hiff : isAllowlisted (setAllowlist phrases) m = true ↔
      ∃ phrase ∈ phrases, strIncludes (m.toLower) (phrase.toLower) = true ∨
        strIncludes (phrase.toLower) (m.toLower) = true := by
    simp [isAllowlisted, setAllowlist, List.any_map, Function.comp, List.any_eq_true]
  have hIss : (scanToolDescription (setAllowlist phrases) pats name desc).issues =
      scanIssuesOf (setAllowlist phrases) pats desc := rfl
  rw [hIss]
  constructor
  · intro hmem hex
    have hfalse := scanIssues_not_allowlisted _ _ _ _ hmem
    rw [hiff.mpr hex] at hfalse
    exact Bool.noConfusion hfalse
  · intro hnex
    have ha : isAllowlisted (setAllowlist phrases) m = false := by
      cases h : isAllowlisted (setAllowlist phrases) m with
      | true => exact absurd (hiff.mp h) hnex
      | false => rfl
    exact mem_scanIssues_of_match _ pats desc p m pos hp hm ha

/-- Concrete pattern used by the C5 witness: a matcher producing one match. -/
def exPattern : DetectionPattern :=
  { pattern := ("exfiltration"), severity := .critical,
    matcher := fun _ => [(("send to"), 5)] }

/-- Witness for C5: a match equal (case-insensitively) to an allowlisted
phrase is suppressed. -/
theorem C5_allowlist_suppression_witness :
    ({ pattern := ("exfiltration"), severity := .critical, matchText := ("send to"),
        position := 5 } : ScanIssue) ∈
      (scanToolDescription (setAllowlist [("SEND TO")]) [exPattern] ("t")
        ("x send to y")).issues
      ↔ ¬ ∃ phrase ∈ [("SEND TO")],
          strIncludes (("send to").toLower) (phrase.toLower) = true ∨
          strIncludes (phrase.toLower) (("send to").toLower) = true :=
  C5_allowlist_suppression [("SEND TO")] [exPattern] exPattern ("t") ("x send to y")
    ("send to") 5 (List.mem_singleton.mpr rfl) (List.mem_singleton.mpr rfl)

/-- C10: isDescriptionSafe is true exactly when the scan status is not
critical, which holds exactly when no finding carries critical severity. -/
theorem C10_isDescriptionSafe (allow : List String) (pats : List DetectionPattern)
    (d : String) :
    (isDescriptionSafe allow pats d = true ↔
      (scanToolDescription allow pats ("_check") d).status ≠ .critical) ∧
    ((scanToolDescription allow pats ("_check") d).status ≠ .critical ↔
      ∀ i ∈ (scanToolDescription allow pats ("_check") d).issues,
        i.severity ≠ .critical) := by
  have hIss : (scanToolDescription allow pats ("_check") d).issues =
      scanIssuesOf allow pats d := rfl
  have hSt : (scanToolDescription allow pats ("_check") d).status =
      (if (scanIssuesOf allow pats d).any (fun i => i.severity == .critical) then
        ScanStatus.critical
       else if (scanIssuesOf allow pats d).any (fun i => i.severity == .warning) then
        ScanStatus.warning
       else ScanStatus.clean) := rfl
  constructor
  · rw [isDescriptionSafe]
    simp [Bool.not_eq_true', beq_eq_false_iff_ne]
  · rw [hIss, hSt]
    by_cases hc : (scanIssuesOf allow pats d).any (fun i => i.severity == .critical) = true
    · rw [if_pos hc]
      apply iff_of_false (by simp)
      rcases List.any_eq_true.mp hc with ⟨i, hi, hsev⟩
      intro hall
      exact hall i hi (by simpa using hsev)
    · rw [if_neg hc]
      have hall : ∀ i ∈ scanIssuesOf allow pats d, i.severity ≠ .critical := by
        intro i hi
        rw [Bool.not_eq_true, List.any_eq_false] at hc
        simpa using hc i hi
      split
      · exact iff_of_true (by simp) hall
      · exact iff_of_true (by simp) hall

/-! The match enumeration loop of scanToolDescription, modelled with fuel.
The source advances only by regex.lastIndex, which RegExp.prototype.exec
sets to the match index plus the match length. -/

/-- The while loop of scanToolDescription for one pattern.  execAt models
RegExp.prototype.exec with the g flag: given the text and lastIndex it
returns the matched text and its index, or none.  The result is some findings
only if the loop finishes within the given fuel. -/
def execLoop (execAt : String → Nat → Option (String × Nat)) (allow : List String)
    (pid : String) (sev : Severity) (desc : String) :
    Nat → Nat → List ScanIssue → Option (List ScanIssue)
  | 0, _, _ => none
  | fuel + 1, lastIndex, acc =>
      match execAt desc lastIndex with
      | none => some acc
      | some (m, idx) =>
          let acc2 := if isAllowlisted allow m then acc
            else acc ++ [{ pattern := pid, severity := sev, matchText := m, position := idx }]
          execLoop execAt allow pid sev desc fuel (idx + m.length) acc2

/-- Model of exec for the regex a* (global, ignore-case) on a text that
contains no letter a: the regex matches the empty string at every index up to
the text length, and yields no match beyond it.  The source a* compiles, so a
custom pattern carrying it passes the pre-validation of loadPatternFile. -/
def zeroWidthExec (t : String) (lastIndex : Nat) : Option (String × Nat) :=
  if lastIndex ≤ t.length then some (("") , lastIndex) else none

/-- C6 is refuted by the code: with the pre-validated custom pattern a*
(its source compiles) and the description b, the scan loop never terminates —
the zero-width match leaves lastIndex at 0, so no amount of fuel completes
the loop. -/
theorem C6_zero_width_loop_diverges :
    ∀ (fuel : Nat) (acc : List ScanIssue),
      execLoop zeroWidthExec [] ("custom") .info ("b") fuel 0 acc = none := by
  intro fuel
  induction fuel with
  | zero => intro acc; rfl
  | succ n ih =>
      intro acc
      simpa [execLoop, zeroWidthExec, isAllowlisted] using ih _

/-! Custom pattern batch loading (loadPatternFile in the CLI entry point and
loadCustomPatterns in patterns.ts). -/

/-- A custom pattern definition as read from a pattern file. -/
structure CustomPatternDef where
  id : String
  pattern : String
  severity : String
deriving DecidableEq

/-- Severity strings accepted by loadPatternFile. -/
def isValidSeverity (s : String) : Bool :=
  s == ("critical") || s == ("warning") || s == ("info")

/-- Per-entry validation of loadPatternFile: non-empty id, non-empty pattern
source that compiles (regex compilation abstracted as the predicate
compiles), severity among critical, warning, info. -/
def validPatternDef (compiles : String → Bool) (p : CustomPatternDef) : Bool :=
  !(p.id == ("")) && !(p.pattern == ("")) && isValidSeverity p.severity &&
    compiles p.pattern

/-- Model of loadPatternFile: any invalid entry rejects the whole batch
(process.exit with a diagnostic is modelled as Except.error). -/
def loadPatternFile (compiles : String → Bool) (defs : List CustomPatternDef) :
    Except String (List CustomPatternDef) :=
  if defs.all (validPatternDef compiles) then .ok defs
  else .error ("invalid pattern")

/-- Decode of a validated severity string. -/
def severityOfString (s : String) : Severity :=
  if s = ("critical") then .critical
  else if s = ("warning") then .warning
  else .info

/-- loadPatternFile followed by loadCustomPatterns: on success the active
custom pattern set is replaced by the compiled batch (mkMatcher abstracts
regex compilation), on failure it is left untouched. -/
def loadPatternFileAndApply (compiles : String → Bool)
    (mkMatcher : String → String → List (String × Nat))
    (defs : List CustomPatternDef) (active : List DetectionPattern) :
    Except String Unit × List DetectionPattern :=
  match loadPatternFile compiles defs with
  | .error e => (.error e, active)
  | .ok ps => (.ok (), ps.map (fun p =>
      { pattern := p.id, severity := severityOfString p.severity,
        matcher := mkMatcher p.pattern }))

/-- C7: an invalid entry anywhere in the batch (empty id, empty or
non-compiling pattern, unknown severity) rejects the whole batch and leaves
the active custom pattern set exactly as it was — no rule of the batch
becomes active. -/
theorem C7_custom_patterns_all_or_nothing (compiles : String → Bool)
    (mkMatcher : String → String → List (String × Nat))
    (defs : List CustomPatternDef) (active : List DetectionPattern)
    (h : ∃ p ∈ defs, p.id = ("") ∨ p.pattern = ("") ∨
      (p.severity ≠ ("critical") ∧ p.severity ≠ ("warning") ∧ p.severity ≠ ("info")) ∨
      compiles p.pattern = false) :
    (loadPatternFileAndApply compiles mkMatcher defs active).2 = active ∧
    ∃ e, (loadPatternFileAndApply compiles mkMatcher defs active).1 = .error e := by
  rcases h with ⟨p, hp, hbad⟩
  have hv : validPatternDef compiles p = false := by
    unfold validPatternDef isValidSeverity
    rcases hbad with h1 | h1 | ⟨h1, h2, h3⟩ | h1
    · simp [h1]
    · simp [h1]
    · simp [h1, h2, h3]
    · simp [h1]
  have hall : defs.all (validPatternDef compiles) = false := by
    rw [List.all_eq_false]
    exact ⟨p, hp, by simp [hv]⟩
  unfold loadPatternFileAndApply loadPatternFile
  rw [if_neg (by simp [hall])]
  exact ⟨rfl, ("invalid pattern"), rfl⟩

/-- Witness for C7 at a concrete batch containing an entry with an empty id. -/
theorem C7_custom_patterns_all_or_nothing_witness :
    (loadPatternFileAndApply (fun _ => true) (fun _ _ => [])
      [{ id := (""), pattern := ("a+"), severity := ("critical") }] []).2 = [] ∧
    ∃ e, (loadPatternFileAndApply (fun _ => true) (fun _ _ => [])
      [{ id := (""), pattern := ("a+"), severity := ("critical") }] []).1 = .error e :=
  C7_custom_patterns_all_or_nothing (fun _ => true) (fun _ _ => [])
    [{ id := (""), pattern := ("a+"), severity := ("critical") }] []
    ⟨_, List.mem_singleton.mpr rfl, Or.inl rfl⟩

/-! Backup retention (tool-pinning.ts, pruneBackups and listBackups).
Backup files are named tool-manifest.<timestamp>.json; pruneBackups sorts the
file names lexicographically (Array.prototype.sort), reverses, and deletes
everything beyond MAX_BACKUPS; listBackups sorts numerically by timestamp,
newest first. -/

/-- Retention constant of tool-pinning.ts. -/
def MAX_BACKUPS : Nat := 5

/-- Decimal digits of n, least significant first, computed with structural
fuel so that it evaluates by kernel reduction. -/
def digitsRevFuel : Nat → Nat → List Nat
  | 0, n => [n]
  | fuel + 1, n => if n < 10 then [n] else n % 10 :: digitsRevFuel fuel (n / 10)

/-- Decimal digits of n, least significant first. -/
def digitsRev (n : Nat) : List Nat := digitsRevFuel n n

/-- Decimal digit character. -/
def digitChar (d : Nat) : Char := Char.ofNat (48 + d)

/-- Decimal representation of n as characters, modelling the JavaScript
number-to-string conversion for integers. -/
def decimalChars (n : Nat) : List Char := ((digitsRev n).map digitChar).reverse

/-- Decimal representation of n as a string. -/
def natToDecimalString (n : Nat) : String := String.mk (decimalChars n)

/-- The backup file name embedding a millisecond timestamp. -/
def backupFileName (ts : Nat) : String :=
  ("tool-manifest.") ++ natToDecimalString ts ++ (".json")

/-- Ascending file-name order used by pruneBackups (files.sort()). -/
def fileLe (a b : Nat) : Prop :=
  charListLe (backupFileName a).data (backupFileName b).data = true

instance : DecidableRel fileLe := fun a b =>
  inferInstanceAs (Decidable (charListLe (backupFileName a).data (backupFileName b).data = true))

/-- Numeric newest-first order used by listBackups. -/
def tsDesc (a b : Nat) : Prop := b ≤ a

instance : DecidableRel tsDesc := fun a b => inferInstanceAs (Decidable (b ≤ a))

/-- Model of pruneBackups: the kept timestamps are the first MAX_BACKUPS of
the file names sorted ascending then reversed. -/
def pruneBackupsKept (tss : List Nat) : List Nat :=
  ((List.insertionSort fileLe tss).reverse).take MAX_BACKUPS

/-- Model of listBackups: timestamps sorted newest first. -/
def listBackups (tss : List Nat) : List Nat := List.insertionSort tsDesc tss

theorem digitsRevFuel_adequate : ∀ (fuel1 fuel2 n : Nat), n ≤ fuel1 → n ≤ fuel2 →
    digitsRevFuel fuel1 n = digitsRevFuel fuel2 n
  | 0, 0, n, _, _ => rfl
  | 0, f2 + 1, n, h1, _ => by
      interval_cases n
      simp [digitsRevFuel]
  | f1 + 1, 0, n, _, h2 => by
      interval_cases n
      simp [digitsRevFuel]
  | f1 + 1, f2 + 1, n, h1, h2 => by
      simp only [digitsRevFuel]
      by_cases hn : n < 10
      · simp [hn]
      · simp only [if_neg hn]
        rw [digitsRevFuel_adequate f1 f2 (n / 10) (by omega) (by omega)]

theorem digitsRev_lt (n : Nat) (h : n < 10) : digitsRev n = [n] := by
  unfold digitsRev
  cases n with
  | zero => rfl
  | succ k => simp [digitsRevFuel, h]

theorem digitsRev_ge (n : Nat) (h : 10 ≤ n) :
    digitsRev n = n % 10 :: digitsRev (n / 10) := by
  unfold digitsRev
  cases n with
  | zero => omega
  | succ k =>
      show digitsRevFuel (k + 1) (k + 1) = _
      simp only [digitsRevFuel, if_neg (by omega : ¬(k + 1 < 10))]
      rw [digitsRevFuel_adequate k ((k + 1) / 10) ((k + 1) / 10) (by omega) (le_refl _)]

theorem digitsRev_len_pos (n : Nat) : 0 < (digitsRev n).length := by
  by_cases h : n < 10
  · rw [digitsRev_lt n h]
    simp
  · rw [digitsRev_ge n (by omega)]
    simp

theorem digitsRev_len : ∀ (k n : Nat), 10 ^ k ≤ n → n < 10 ^ (k + 1) →
    (digitsRev n).length = k + 1
  | 0, n, _, h2 => by
      rw [digitsRev_lt n (by simpa using h2)]
      rfl
  | k + 1, n, h1, h2 => by
      have h10 : 10 ≤ n := by
        have hp : (10 : Nat) ^ 1 ≤ 10 ^ (k + 1) := Nat.pow_le_pow_right (by omega) (by omega)
        rw [pow_one] at hp
        omega
      rw [digitsRev_ge n h10]
      simp only [List.length_cons]
      rw [digitsRev_len k (n / 10) ?_ ?_]
      · rw [Nat.le_div_iff_mul_le (by omega)]
        calc 10 ^ k * 10 = 10 ^ (k + 1) := by ring
        _ ≤ n := h1
      · rw [Nat.div_lt_iff_lt_mul (by omega)]
        calc n < 10 ^ (k + 2) := h2
        _ = 10 ^ (k + 1) * 10 := by ring

theorem digitsRev_len_one_iff (n : Nat) : (digitsRev n).length = 1 ↔ n < 10 := by
  constructor
  · intro h
    by_contra hn
    rw [digitsRev_ge n (by omega)] at h
    have := digitsRev_len_pos (n / 10)
    simp only [List.length_cons] at h
    omega
  · intro h
    rw [digitsRev_lt n h]
    rfl

theorem digitChar_lt_iff : ∀ a, a < 10 → ∀ b, b < 10 →
    ((digitChar a < digitChar b) ↔ a < b) := by decide

theorem charListLe_append_congr : ∀ (xs ys as bs : List Char), xs.length = ys.length →
    charListLe (xs ++ as) (ys ++ bs) =
      (if xs = ys then charListLe as bs else charListLe xs ys)
  | [], [], as, bs, _ => by simp
  | [], _ :: _, _, _, h => by simp at h
  | _ :: _, [], _, _, h => by simp at h
  | x :: xs, y :: ys, as, bs, h => by
      simp only [List.length_cons, Nat.add_right_cancel_iff] at h
      rcases lt_trichotomy x y with hxy | hxy | hxy
      · have hne : (x :: xs) ≠ (y :: ys) := by simp [ne_of_lt hxy]
        simp [charListLe, hxy, hne]
      · subst hxy
        have ihr := charListLe_append_congr xs ys as bs h
        by_cases he : xs = ys
        · subst he
          simp [charListLe, lt_irrefl x, ihr]
        · have hne : (x :: xs) ≠ (x :: ys) := by simp [he]
          simp [charListLe, lt_irrefl x, ihr, he, hne]
      · have hne : (x :: xs) ≠ (y :: ys) := by
          simp [(ne_of_lt hxy).symm]
        simp [charListLe, hxy, lt_asymm hxy, hne]

theorem decimalChars_length (n : Nat) : (decimalChars n).length = (digitsRev n).length := by
  simp [decimalChars]

theorem decimalChars_step (n : Nat) (h : 10 ≤ n) :
    decimalChars n = decimalChars (n / 10) ++ [digitChar (n % 10)] := by
  unfold decimalChars
  rw [digitsRev_ge n h]
  simp

theorem charListLe_singleton_digit (a b : Nat) (ha : a < 10) (hb : b < 10) :
    (charListLe [digitChar a] [digitChar b] = true ↔ a ≤ b) := by
  by_cases h1 : a < b
  · simp [charListLe, (digitChar_lt_iff a ha b hb).mpr h1]
    omega
  · by_cases h2 : b < a
    · have hnl : ¬ digitChar a < digitChar b := fun hc =>
        absurd ((digitChar_lt_iff a ha b hb).mp hc) h1
      simp [charListLe, hnl, (digitChar_lt_iff b hb a ha).mpr h2]
      omega
    · have hab : a = b := by omega
      subst hab
      simp [charListLe, lt_irrefl]

theorem decimalChars_le_iff_len : ∀ (L m n : Nat), (digitsRev m).length = L →
    (digitsRev n).length = L →
    (charListLe (decimalChars m) (decimalChars n) = true ↔ m ≤ n)
  | 0, m, _, hm, _ => absurd hm (by have := digitsRev_len_pos m; omega)
  | 1, m, n, hm, hn => by
      have hm10 : m < 10 := (digitsRev_len_one_iff m).mp hm
      have hn10 : n < 10 := (digitsRev_len_one_iff n).mp hn
      unfold decimalChars
      rw [digitsRev_lt n hn10, digitsRev_lt m hm10]
      simpa using charListLe_singleton_digit m n hm10 hn10
  | L + 2, m, n, hm, hn => by
      have hm10 : 10 ≤ m := by
        by_contra hc
        push_neg at hc
        rw [(digitsRev_len_one_iff m).mpr hc] at hm
        omega
      have hn10 : 10 ≤ n := by
        by_contra hc
        push_neg at hc
        rw [(digitsRev_len_one_iff n).mpr hc] at hn
        omega
      have hm2 : (digitsRev (m / 10)).length = L + 1 := by
        rw [digitsRev_ge m hm10] at hm
        simpa using hm
      have hn2 : (digitsRev (n / 10)).length = L + 1 := by
        rw [digitsRev_ge n hn10] at hn
        simpa using hn
      rw [decimalChars_step n hn10, decimalChars_step m hm10]
      have hlenc : (decimalChars (m / 10)).length = (decimalChars (n / 10)).length := by
        rw [decimalChars_length, decimalChars_length, hm2, hn2]
      rw [charListLe_append_congr _ _ _ _ hlenc]
      have ihd := decimalChars_le_iff_len (L + 1) (m / 10) (n / 10) hm2 hn2
      have ihr := decimalChars_le_iff_len (L + 1) (n / 10) (m / 10) hn2 hm2
      by_cases he : decimalChars (m / 10) = decimalChars (n / 10)
      · have h1 : m / 10 ≤ n / 10 := ihd.mp (by rw [he]; exact charListLe_refl _)
        have h2 : n / 10 ≤ m / 10 := ihr.mp (by rw [he]; exact charListLe_refl _)
        rw [if_pos he,
          charListLe_singleton_digit (m % 10) (n % 10) (by omega) (by omega)]
        omega
      · rw [if_neg he]
        have hdivne : m / 10 ≠ n / 10 := fun hd => he (by rw [hd])
        rw [ihd]
        omega

theorem strData_append (s t : String) : (s ++ t).data = s.data ++ t.data := rfl

/-- For thirteen-digit timestamps (every Date.now() value of the current
era), the file-name order agrees with the numeric order. -/
theorem fileLe_iff (a b : Nat) (ha1 : 10 ^ 12 ≤ a) (ha2 : a < 10 ^ 13)
    (hb1 : 10 ^ 12 ≤ b) (hb2 : b < 10 ^ 13) : fileLe a b ↔ a ≤ b := by
  have hla : (digitsRev a).length = 13 := digitsRev_len 12 a ha1 ha2
  have hlb : (digitsRev b).length = 13 := digitsRev_len 12 b hb1 hb2
  have hlc : (decimalChars a).length = (decimalChars b).length := by
    rw [decimalChars_length, decimalChars_length, hla, hlb]
  have hiff := decimalChars_le_iff_len 13 a b (by rw [hla]) (by rw [hlb])
  unfold fileLe backupFileName natToDecimalString
  have hmk : ∀ cs : List Char, (String.mk cs).data = cs := fun _ => rfl
  simp only [strData_append, hmk, List.append_assoc]
  rw [charListLe_append_congr _ _ _ _ rfl, if_pos rfl]
  rw [charListLe_append_congr _ _ _ _ hlc]
  by_cases he : decimalChars a = decimalChars b
  · rw [if_pos he]
    have hab : a ≤ b := hiff.mp (by rw [he]; exact charListLe_refl _)
    simp [charListLe_refl, hab]
  · rw [if_neg he]
    exact hiff

instance : IsTotal Nat fileLe :=
  ⟨fun a b => charListLe_total (backupFileName a).data (backupFileName b).data⟩

instance : IsTrans Nat fileLe :=
  ⟨fun a b c => charListLe_trans (backupFileName a).data (backupFileName b).data
    (backupFileName c).data⟩

instance : IsTotal Nat tsDesc := ⟨fun a b => (le_total b a).imp id id⟩

instance : IsTrans Nat tsDesc := ⟨fun _ _ _ h1 h2 => le_trans h2 h1⟩

instance : IsAntisymm Nat tsDesc := ⟨fun _ _ h1 h2 => le_antisymm h2 h1⟩

/-- With thirteen-digit timestamps the reversed file-name sort is the numeric
newest-first sort. -/
theorem prune_sort_eq (tss : List Nat)
    (hr : ∀ t ∈ tss, 10 ^ 12 ≤ t ∧ t < 10 ^ 13) :
    (List.insertionSort fileLe tss).reverse = List.insertionSort tsDesc tss := by
  have hperm : (List.insertionSort fileLe tss).reverse.Perm
      (List.insertionSort tsDesc tss) :=
    ((List.reverse_perm _).trans (List.perm_insertionSort fileLe tss)).trans
      (List.perm_insertionSort tsDesc tss).symm
  have hmem : ∀ a ∈ (List.insertionSort fileLe tss).reverse, a ∈ tss := fun a ha =>
    (List.perm_insertionSort fileLe tss).subset ((List.reverse_perm _).subset ha)
  have hs1 : List.Sorted tsDesc (List.insertionSort fileLe tss).reverse := by
    have hpair : (List.insertionSort fileLe tss).reverse.Pairwise
        (fun a b => fileLe b a) :=
      List.pairwise_reverse.mpr (List.sorted_insertionSort fileLe tss)
    refine hpair.imp_of_mem ?_
    intro a b ha hb hba
    have hra := hr a (hmem a ha)
    have hrb := hr b (hmem b hb)
    exact (fileLe_iff b a hrb.1 hrb.2 hra.1 hra.2).mp hba
  exact List.eq_of_perm_of_sorted hperm hs1 (List.sorted_insertionSort tsDesc tss)

/-- C8 amended: for backup timestamps of thirteen decimal digits (every
Date.now() millisecond value of the current era), pruning keeps exactly
min(total, MAX_BACKUPS) backups, and the kept ones are the most recent by
timestamp (every kept timestamp is at least every pruned one); listBackups
returns the timestamps sorted newest first. -/
theorem C8_backup_retention (tss : List Nat)
    (hr : ∀ t ∈ tss, 10 ^ 12 ≤ t ∧ t < 10 ^ 13) :
    (pruneBackupsKept tss).length = min tss.length MAX_BACKUPS ∧
    pruneBackupsKept tss = (List.insertionSort tsDesc tss).take MAX_BACKUPS ∧
    (∀ a ∈ pruneBackupsKept tss, ∀ b ∈ tss, b ∉ pruneBackupsKept tss → b ≤ a) ∧
    listBackups tss = List.insertionSort tsDesc tss ∧
    List.Sorted tsDesc (listBackups tss) := by
  have heq : pruneBackupsKept tss = (List.insertionSort tsDesc tss).take MAX_BACKUPS := by
    unfold pruneBackupsKept
    rw [prune_sort_eq tss hr]
  refine ⟨?_, heq, ?_, rfl, List.sorted_insertionSort tsDesc tss⟩
  · rw [heq, List.length_take, (List.perm_insertionSort tsDesc tss).length_eq,
      Nat.min_comm]
  · intro a ha b hb hnb
    rw [heq] at ha hnb
    have hsorted := List.sorted_insertionSort tsDesc tss
    rw [← List.take_append_drop MAX_BACKUPS (List.insertionSort tsDesc tss)] at hsorted
    have hpw := (List.pairwise_append.mp hsorted).2.2
    have hbL : b ∈ List.insertionSort tsDesc tss :=
      ((List.perm_insertionSort tsDesc tss).mem_iff).mpr hb
    rw [← List.take_append_drop MAX_BACKUPS (List.insertionSort tsDesc tss)] at hbL
    rcases List.mem_append.mp hbL with hbt | hbd
    · exact absurd hbt hnb
    · exact hpw a ha b hbd

/-- Witness for C8 at six concrete thirteen-digit timestamps. -/
theorem C8_backup_retention_witness :
    (pruneBackupsKept [1700000000004, 1700000000001, 1700000000006, 1700000000002,
        1700000000005, 1700000000003]).length =
      min ([1700000000004, 1700000000001, 1700000000006, 1700000000002,
        1700000000005, 1700000000003] : List Nat).length MAX_BACKUPS ∧
    pruneBackupsKept [1700000000004, 1700000000001, 1700000000006, 1700000000002,
        1700000000005, 1700000000003] =
      (List.insertionSort tsDesc [1700000000004, 1700000000001, 1700000000006,
        1700000000002, 1700000000005, 1700000000003]).take MAX_BACKUPS ∧
    (∀ a ∈ pruneBackupsKept [1700000000004, 1700000000001, 1700000000006,
        1700000000002, 1700000000005, 1700000000003],
      ∀ b ∈ [1700000000004, 1700000000001, 1700000000006, 1700000000002,
        1700000000005, 1700000000003],
      b ∉ pruneBackupsKept [1700000000004, 1700000000001, 1700000000006,
        1700000000002, 1700000000005, 1700000000003] → b ≤ a) ∧
    listBackups [1700000000004, 1700000000001, 1700000000006, 1700000000002,
        1700000000005, 1700000000003] =
      List.insertionSort tsDesc [1700000000004, 1700000000001, 1700000000006,
        1700000000002, 1700000000005, 1700000000003] ∧
    List.Sorted tsDesc (listBackups [1700000000004, 1700000000001, 1700000000006,
        1700000000002, 1700000000005, 1700000000003]) :=
  C8_backup_retention [1700000000004, 1700000000001, 1700000000006, 1700000000002,
    1700000000005, 1700000000003] (by decide)

/-- The original C8 is refuted by the code: the prune order is lexicographic
on file names, so with timestamps of different digit lengths an older backup
(999) is kept while a more recent one (1001) is pruned. -/
theorem C8_backup_retention_counterexample :
    999 ∈ pruneBackupsKept [999, 1000, 1001, 1002, 1003, 1004, 1005] ∧
    1001 ∉ pruneBackupsKept [999, 1000, 1001, 1002, 1003, 1004, 1005] ∧
    (999 : Nat) < 1001 ∧
    pruneBackupsKept [999, 1000, 1001, 1002, 1003, 1004, 1005] ≠
      (List.insertionSort tsDesc [999, 1000, 1001, 1002, 1003, 1004, 1005]).take
        MAX_BACKUPS := by decide

/-! Rollback (tool-pinning.ts, rollbackManifest with backupManifest).  The
file system is abstracted to the raw manifest file content plus the backup
store keyed by timestamp; an injected IOOutcome models a file-system error
inside the try block. -/

/-- State of the manifest file and the backup directory. -/
structure BackupState where
  manifestFile : Option String
  backups : List (Nat × String)
deriving DecidableEq

/-- Outcome of the file operations inside the try block of rollbackManifest:
either they all succeed, or one throws — before the pre-restore backup has
written anything (failEarly), or after it, during the read or write of the
restore itself (failLate). -/
inductive IOOutcome where
  | ok
  | failEarly (msg : String)
  | failLate (msg : String)
deriving DecidableEq

/-- Result of rollbackManifest; restoredFrom carries the timestamp of the
restored backup (the source reports its path). -/
structure RollbackResult where
  success : Bool
  message : String
  restoredFrom : Option Nat
deriving DecidableEq

/-- Lookup of a backup file content by timestamp. -/
def backupLookup (bs : List (Nat × String)) (t : Nat) : Option String :=
  match bs with
  | [] => none
  | (t2, c) :: rest => if t2 = t then some c else backupLookup rest t

/-- Model of backupManifest: if a manifest file exists, copy its content into
the backup store under the capture timestamp, then prune to the retained file
names; otherwise do nothing. -/
def backupManifest (now : Nat) (st : BackupState) : BackupState :=
  match st.manifestFile with
  | none => st
  | some content =>
      let bs := st.backups ++ [(now, content)]
      let kept := pruneBackupsKept (bs.map Prod.fst)
      { st with backups := bs.filter (fun b => kept.contains b.1) }

/-- The try block of rollbackManifest: back up the current state, read the
target backup and overwrite the manifest with it.  Any file-system error is
caught and converted into a structured Rollback failed result; an error
before the pre-restore backup leaves the state untouched, one after it
leaves the freshly taken backup in place.  A read of a backup deleted by the
pre-restore pruning fails the same way, its error detail abstracted as
ENOENT.  The ISO date of the source message is abstracted to the decimal
timestamp. -/
def rollbackRestore (target now : Nat) (io : IOOutcome) (st : BackupState) :
    RollbackResult × BackupState :=
  match io with
  | .failEarly msg =>
      ({ success := false, message := ("Rollback failed: ") ++ msg,
         restoredFrom := none }, st)
  | .failLate msg =>
      ({ success := false, message := ("Rollback failed: ") ++ msg,
         restoredFrom := none }, backupManifest now st)
  | .ok =>
      let st2 := backupManifest now st
      match backupLookup st2.backups target with
      | none =>
          ({ success := false, message := ("Rollback failed: ENOENT"),
             restoredFrom := none }, st2)
      | some content =>
          ({ success := true,
             message := ("Restored from backup dated ") ++ natToDecimalString target,
             restoredFrom := some target },
           { st2 with manifestFile := some content })

/-- Model of rollbackManifest.  The JavaScript truthiness test if (timestamp)
treats the timestamp 0 like an absent argument. -/
def rollbackManifest (ts? : Option Nat) (now : Nat) (io : IOOutcome)
    (st : BackupState) : RollbackResult × BackupState :=
  let backups := listBackups (st.backups.map Prod.fst)
  if backups.isEmpty then
    ({ success := false, message := ("No backups available"), restoredFrom := none }, st)
  else
    match ts? with
    | some t =>
        if t = 0 then rollbackRestore (backups.headD 0) now io st
        else if backups.contains t then rollbackRestore t now io st
        else
          ({ success := false,
             message := ("Backup with timestamp ") ++ natToDecimalString t ++
               (" not found"),
             restoredFrom := none }, st)
    | none => rollbackRestore (backups.headD 0) now io st

theorem backupLookup_isSome : ∀ (bs : List (Nat × String)) (t : Nat),
    t ∈ bs.map Prod.fst → ∃ c, backupLookup bs t = some c
  | [], t, h => by simp at h
  | (t2, c) :: rest, t, h => by
      by_cases he : t2 = t
      · exact ⟨c, by simp [backupLookup, he]⟩
      · simp only [List.map_cons, List.mem_cons] at h
        rcases h with h1 | h2
        · exact absurd h1.symm he
        · rcases backupLookup_isSome rest t h2 with ⟨c2, hc2⟩
          exact ⟨c2, by simp [backupLookup, he, hc2]⟩

theorem listBackups_ne_nil (l : List Nat) (hne : l ≠ []) : listBackups l ≠ [] := by
  intro h
  have := (List.perm_insertionSort tsDesc l).length_eq
  rw [show List.insertionSort tsDesc l = listBackups l from rfl, h] at this
  exact hne (List.length_eq_zero.mp this.symm)

theorem listBackups_isEmpty_false (l : List Nat) (hne : l ≠ []) :
    (listBackups l).isEmpty = false := by
  cases hl : listBackups l with
  | nil => exact absurd hl (listBackups_ne_nil l hne)
  | cons a t => rfl

theorem listBackups_head_max (l : List Nat) (hne : l ≠ []) :
    (listBackups l).headD 0 ∈ l ∧ ∀ b ∈ l, b ≤ (listBackups l).headD 0 := by
  cases hs : listBackups l with
  | nil => exact absurd hs (listBackups_ne_nil l hne)
  | cons h t =>
      have hperm : (h :: t).Perm l := by
        rw [← hs]
        exact List.perm_insertionSort tsDesc l
      have hin : h ∈ l := hperm.subset (List.mem_cons_self h t)
      have hsorted : List.Sorted tsDesc (h :: t) := by
        rw [← hs]
        exact List.sorted_insertionSort tsDesc l
      refine ⟨by simpa using hin, ?_⟩
      intro b hb
      have hbmem : b ∈ h :: t := hperm.symm.subset hb
      rcases List.mem_cons.mp hbmem with rfl | hbt
      · simp
      · simpa using List.rel_of_sorted_cons hsorted b hbt

theorem listBackups_contains_false (l : List Nat) (t : Nat) (h : t ∉ l) :
    (listBackups l).contains t = false := by
  cases hc : (listBackups l).contains t with
  | false => rfl
  | true =>
      exfalso
      have : t ∈ listBackups l := by
        simpa [List.contains, List.elem_iff] using hc
      exact h ((List.perm_insertionSort tsDesc l).subset this)

/-- A fresh backup taken with a timestamp newer than all existing ones
survives the pruning. -/
theorem now_in_prune (old : List Nat) (now : Nat)
    (hro : ∀ t ∈ old, 10 ^ 12 ≤ t ∧ t < 10 ^ 13)
    (hnow : 10 ^ 12 ≤ now ∧ now < 10 ^ 13)
    (hgt : ∀ t ∈ old, t < now) :
    now ∈ pruneBackupsKept (old ++ [now]) := by
  have htne : old ++ [now] ≠ [] := by simp
  have hrall : ∀ t ∈ old ++ [now], 10 ^ 12 ≤ t ∧ t < 10 ^ 13 := by
    intro t ht
    rcases List.mem_append.mp ht with h1 | h1
    · exact hro t h1
    · rw [List.mem_singleton.mp h1]
      exact hnow
  have hkept : pruneBackupsKept (old ++ [now]) =
      (List.insertionSort tsDesc (old ++ [now])).take MAX_BACKUPS := by
    unfold pruneBackupsKept
    rw [prune_sort_eq (old ++ [now]) hrall]
  obtain ⟨hhin, hhmax⟩ := listBackups_head_max (old ++ [now]) htne
  have hnowin : now ∈ old ++ [now] := by simp
  have hhead : (listBackups (old ++ [now])).headD 0 = now := by
    have h1 : now ≤ (listBackups (old ++ [now])).headD 0 := hhmax now hnowin
    have h2 : (listBackups (old ++ [now])).headD 0 ≤ now := by
      rcases List.mem_append.mp hhin with hm | hm
      · exact le_of_lt (hgt _ hm)
      · rw [List.mem_singleton.mp hm]
    omega
  rw [hkept]
  cases hs : List.insertionSort tsDesc (old ++ [now]) with
  | nil => exact absurd hs (listBackups_ne_nil _ htne)
  | cons h t =>
      have hh : h = now := by
        have hhd : (listBackups (old ++ [now])).headD 0 = h := by
          show (List.insertionSort tsDesc (old ++ [now])).headD 0 = h
          rw [hs]
          rfl
        rw [← hhd, hhead]
      rw [hh]
      show now ∈ List.take MAX_BACKUPS (now :: t)
      simp [MAX_BACKUPS]

theorem backupLookup_append_left : ∀ (bs rest : List (Nat × String)) (t : Nat) (v : String),
    backupLookup bs t = some v → backupLookup (bs ++ rest) t = some v
  | [], _, _, _, h => by simp [backupLookup] at h
  | (k, c) :: tl, rest, t, v, h => by
      by_cases hk : k = t
      · simp only [backupLookup, if_pos hk] at h ⊢
        exact h
      · simp only [backupLookup, if_neg hk] at h ⊢
        exact backupLookup_append_left tl rest t v h

/-- Filtering by a key predicate that holds at t does not change the lookup
at t: every entry with key t is kept and only entries with other keys can be
dropped. -/
theorem backupLookup_filter_keys (p : Nat → Bool) (t : Nat) (hp : p t = true) :
    ∀ bs : List (Nat × String),
    backupLookup (bs.filter (fun b => p b.1)) t = backupLookup bs t
  | [] => rfl
  | (k, c) :: tl => by
      by_cases hk : k = t
      · have hpk : p k = true := by rw [hk]; exact hp
        rw [List.filter_cons_of_pos (by simpa using hpk)]
        simp [backupLookup, if_pos hk]
      · by_cases hpk : p k = true
        · rw [List.filter_cons_of_pos (by simpa using hpk)]
          simp only [backupLookup, if_neg hk]
          exact backupLookup_filter_keys p t hp tl
        · rw [List.filter_cons_of_neg (by simpa using hpk)]
          simp only [backupLookup, if_neg hk]
          exact backupLookup_filter_keys p t hp tl

/-- In a newest-first sorted list, an element exceeded by at most k values
occurs among the first k + 1 entries. -/
theorem mem_take_of_countP_lt : ∀ (l : List Nat) (x k : Nat),
    List.Sorted tsDesc l → x ∈ l → l.countP (fun y => decide (x < y)) ≤ k →
    x ∈ l.take (k + 1)
  | [], x, _, _, hx, _ => absurd hx (List.not_mem_nil x)
  | h :: t, x, k, hs, hx, hc => by
      by_cases hxh : x = h
      · rw [List.take_succ_cons]
        exact hxh ▸ List.mem_cons_self h (t.take k)
      · have hxt : x ∈ t := (List.mem_cons.mp hx).resolve_left hxh
        have hxle : x ≤ h := List.rel_of_sorted_cons hs x hxt
        have hxlt : x < h := lt_of_le_of_ne hxle hxh
        have hcnt : (h :: t).countP (fun y => decide (x < y)) =
            t.countP (fun y => decide (x < y)) + 1 := by
          simp [List.countP_cons, hxlt]
        cases k with
        | zero => omega
        | succ k2 =>
            have hck : t.countP (fun y => decide (x < y)) ≤ k2 := by omega
            have ih := mem_take_of_countP_lt t x k2 hs.of_cons hxt hck
            rw [List.take_succ_cons]
            exact List.mem_cons_of_mem h ih

/-- The most recent of the old backups survives the pre-restore pruning:
only the fresh capture timestamp exceeds it. -/
theorem target_in_prune (old : List Nat) (now tg : Nat)
    (hro : ∀ t ∈ old, 10 ^ 12 ≤ t ∧ t < 10 ^ 13)
    (hnow : 10 ^ 12 ≤ now ∧ now < 10 ^ 13)
    (htin : tg ∈ old) (htmax : ∀ b ∈ old, b ≤ tg) (htlt : tg < now) :
    tg ∈ pruneBackupsKept (old ++ [now]) := by
  have hrall : ∀ t ∈ old ++ [now], 10 ^ 12 ≤ t ∧ t < 10 ^ 13 := by
    intro t ht
    rcases List.mem_append.mp ht with h1 | h1
    · exact hro t h1
    · rw [List.mem_singleton.mp h1]
      exact hnow
  have hkept : pruneBackupsKept (old ++ [now]) =
      (List.insertionSort tsDesc (old ++ [now])).take MAX_BACKUPS := by
    unfold pruneBackupsKept
    rw [prune_sort_eq (old ++ [now]) hrall]
  rw [hkept]
  have hmemsort : tg ∈ List.insertionSort tsDesc (old ++ [now]) :=
    (List.perm_insertionSort tsDesc (old ++ [now])).mem_iff.mpr
      (List.mem_append.mpr (Or.inl htin))
  have hcount : (List.insertionSort tsDesc (old ++ [now])).countP
      (fun y => decide (tg < y)) ≤ 1 := by
    rw [(List.perm_insertionSort tsDesc (old ++ [now])).countP_eq]
    rw [List.countP_append]
    have hold : old.countP (fun y => decide (tg < y)) = 0 := by
      rw [List.countP_eq_zero]
      intro y hy
      simpa using not_lt.mpr (htmax y hy)
    rw [hold]
    simp [List.countP_cons, htlt]
  have htake2 := mem_take_of_countP_lt _ tg 1
    (List.sorted_insertionSort tsDesc (old ++ [now])) hmemsort hcount
  have hsub : (List.insertionSort tsDesc (old ++ [now])).take 2 ⊆
      (List.insertionSort tsDesc (old ++ [now])).take MAX_BACKUPS := by
    intro y hy
    rw [show (2 : Nat) = min 2 MAX_BACKUPS from rfl, ← List.take_take] at hy
    exact List.take_subset _ _ hy
  exact hsub htake2

/-- C9 amended: no backups gives the structured No backups available failure;
a nonzero timestamp matching no backup gives the structured not-found failure
with the manifest unchanged; without a timestamp the most recent backup is
selected and — when no manifest file exists (so the pre-restore backup is a
no-op), or when all timestamps involved have thirteen decimal digits with the
capture timestamp newest — its content is restored after the pre-restore
backup of the overwritten state; I/O errors inside the restore are caught and
converted into a structured failure prefixed Rollback failed: rather than
propagated, leaving the state unchanged when the error precedes the
pre-restore backup and leaving that fresh backup in place when it follows
it. -/
theorem C9_rollback (st : BackupState) (now : Nat) (msg : String) :
    (st.backups = [] → ∀ (tsq : Option Nat) (io : IOOutcome),
      rollbackManifest tsq now io st =
        ({ success := false, message := ("No backups available"),
           restoredFrom := none }, st)) ∧
    (∀ (t : Nat) (io : IOOutcome), st.backups ≠ [] → t ≠ 0 →
      t ∉ st.backups.map Prod.fst →
      rollbackManifest (some t) now io st =
        ({ success := false,
           message := ("Backup with timestamp ") ++ natToDecimalString t ++
             (" not found"),
           restoredFrom := none }, st)) ∧
    (st.backups ≠ [] →
      rollbackManifest none now (.failEarly msg) st =
        ({ success := false, message := ("Rollback failed: ") ++ msg,
           restoredFrom := none }, st)) ∧
    (st.backups ≠ [] →
      rollbackManifest none now (.failLate msg) st =
        ({ success := false, message := ("Rollback failed: ") ++ msg,
           restoredFrom := none }, backupManifest now st)) ∧
    (st.backups ≠ [] → st.manifestFile = none →
      ∃ c, backupLookup st.backups
          ((listBackups (st.backups.map Prod.fst)).headD 0) = some c ∧
        rollbackManifest none now .ok st =
          ({ success := true,
             message := ("Restored from backup dated ") ++
               natToDecimalString ((listBackups (st.backups.map Prod.fst)).headD 0),
             restoredFrom := some ((listBackups (st.backups.map Prod.fst)).headD 0) },
           { st with manifestFile := some c }) ∧
        ((listBackups (st.backups.map Prod.fst)).headD 0) ∈ st.backups.map Prod.fst ∧
        (∀ b ∈ st.backups.map Prod.fst,
          b ≤ (listBackups (st.backups.map Prod.fst)).headD 0)) ∧
    (∀ c, st.manifestFile = some c → st.backups ≠ [] →
      (∀ t ∈ st.backups.map Prod.fst, 10 ^ 12 ≤ t ∧ t < 10 ^ 13) →
      (10 ^ 12 ≤ now ∧ now < 10 ^ 13) →
      (∀ t ∈ st.backups.map Prod.fst, t < now) →
      ∃ content, backupLookup st.backups
          ((listBackups (st.backups.map Prod.fst)).headD 0) = some content ∧
        rollbackManifest none now .ok st =
          ({ success := true,
             message := ("Restored from backup dated ") ++
               natToDecimalString ((listBackups (st.backups.map Prod.fst)).headD 0),
             restoredFrom := some ((listBackups (st.backups.map Prod.fst)).headD 0) },
           { manifestFile := some content,
             backups := (st.backups ++ [(now, c)]).filter
               (fun b => (pruneBackupsKept
                 ((st.backups ++ [(now, c)]).map Prod.fst)).contains b.1) }) ∧
        (now, c) ∈ (rollbackManifest none now .ok st).2.backups ∧
        ((listBackups (st.backups.map Prod.fst)).headD 0) ∈ st.backups.map Prod.fst ∧
        (∀ b ∈ st.backups.map Prod.fst,
          b ≤ (listBackups (st.backups.map Prod.fst)).headD 0)) := by
  refine ⟨?_, ?_, ?_, ?_, ?_, ?_⟩
  · intro h tsq io
    simp [rollbackManifest, h, listBackups]
  · intro t io hne ht0 hnotin
    have hmne : st.backups.map Prod.fst ≠ [] := by simpa using hne
    have hie := listBackups_isEmpty_false _ hmne
    have hcont := listBackups_contains_false _ t hnotin
    simp only [rollbackManifest]
    rw [if_neg (by simp [hie])]
    rw [if_neg ht0]
    rw [if_neg (fun hcc => by rw [hcont] at hcc; exact Bool.noConfusion hcc)]
  · intro hne
    have hmne : st.backups.map Prod.fst ≠ [] := by simpa using hne
    have hie := listBackups_isEmpty_false _ hmne
    simp only [rollbackManifest]
    rw [if_neg (by simp [hie])]
    rfl
  · intro hne
    have hmne : st.backups.map Prod.fst ≠ [] := by simpa using hne
    have hie := listBackups_isEmpty_false _ hmne
    simp only [rollbackManifest]
    rw [if_neg (by simp [hie])]
    rfl
  · intro hne hmf
    have hmne : st.backups.map Prod.fst ≠ [] := by simpa using hne
    have hie := listBackups_isEmpty_false _ hmne
    obtain ⟨hmem, hmax⟩ := listBackups_head_max _ hmne
    obtain ⟨c, hc⟩ := backupLookup_isSome st.backups _ hmem
    refine ⟨c, hc, ?_, hmem, hmax⟩
    simp only [rollbackManifest]
    rw [if_neg (by simp [hie])]
    simp only [rollbackRestore, backupManifest, hmf, hc]
  · intro c hc hne hro hnow hgt
    have hmne : st.backups.map Prod.fst ≠ [] := by simpa using hne
    have hie := listBackups_isEmpty_false _ hmne
    obtain ⟨hTin, hTmax⟩ := listBackups_head_max _ hmne
    obtain ⟨content, hcontent⟩ := backupLookup_isSome st.backups _ hTin
    have hmapeq : (st.backups ++ [(now, c)]).map Prod.fst =
        st.backups.map Prod.fst ++ [now] := by simp
    have hTlt : (listBackups (st.backups.map Prod.fst)).headD 0 < now := hgt _ hTin
    have hTkept : (listBackups (st.backups.map Prod.fst)).headD 0 ∈
        pruneBackupsKept ((st.backups ++ [(now, c)]).map Prod.fst) := by
      rw [hmapeq]
      exact target_in_prune _ now _ hro hnow hTin hTmax hTlt
    have hp : (pruneBackupsKept ((st.backups ++ [(now, c)]).map Prod.fst)).contains
        ((listBackups (st.backups.map Prod.fst)).headD 0) = true := by
      simp only [List.contains, List.elem_iff]
      exact hTkept
    have hlkF : backupLookup ((st.backups ++ [(now, c)]).filter
        (fun b => (pruneBackupsKept
          ((st.backups ++ [(now, c)]).map Prod.fst)).contains b.1))
        ((listBackups (st.backups.map Prod.fst)).headD 0) = some content := by
      rw [backupLookup_filter_keys
        ((pruneBackupsKept ((st.backups ++ [(now, c)]).map Prod.fst)).contains)
        ((listBackups (st.backups.map Prod.fst)).headD 0) hp
        (st.backups ++ [(now, c)])]
      exact backupLookup_append_left _ _ _ _ hcontent
    have hnkept : now ∈ pruneBackupsKept ((st.backups ++ [(now, c)]).map Prod.fst) := by
      rw [hmapeq]
      exact now_in_prune _ now hro hnow hgt
    refine ⟨content, hcontent, ?_, ?_, hTin, hTmax⟩
    · simp only [rollbackManifest]
      rw [if_neg (by simp [hie])]
      simp only [rollbackRestore, backupManifest, hc]
      rw [hlkF]
    · simp only [rollbackManifest]
      rw [if_neg (by simp [hie])]
      simp only [rollbackRestore, backupManifest, hc]
      rw [hlkF]
      refine List.mem_filter.mpr ⟨by simp, ?_⟩
      simp only [List.contains, List.elem_iff]
      exact hnkept

/-- Witness for C9: structured no-backups failure on an empty store, and a
caught I/O failure returned as a structured Rollback failed result. -/
theorem C9_rollback_witness :
    rollbackManifest none 7 .ok { manifestFile := none, backups := [] } =
      ({ success := false, message := ("No backups available"), restoredFrom := none },
       { manifestFile := none, backups := [] }) ∧
    rollbackManifest none 7 (.failEarly ("disk"))
        { manifestFile := some ("m"), backups := [(5, ("c"))] } =
      ({ success := false, message := ("Rollback failed: ") ++ ("disk"),
         restoredFrom := none },
       { manifestFile := some ("m"), backups := [(5, ("c"))] }) ∧
    (∃ content, backupLookup [((1700000000001 : Nat), ("c1"))]
        ((listBackups ([((1700000000001 : Nat), ("c1"))].map Prod.fst)).headD 0) =
          some content ∧
      rollbackManifest none 1700000000002 .ok
          { manifestFile := some ("m"), backups := [(1700000000001, ("c1"))] } =
        ({ success := true,
           message := ("Restored from backup dated ") ++
             natToDecimalString
               ((listBackups ([((1700000000001 : Nat), ("c1"))].map Prod.fst)).headD 0),
           restoredFrom :=
             some ((listBackups ([((1700000000001 : Nat), ("c1"))].map Prod.fst)).headD
               0) },
         { manifestFile := some content,
           backups := ([(1700000000001, ("c1"))] ++ [(1700000000002, ("m"))]).filter
             (fun b => (pruneBackupsKept
               (([(1700000000001, ("c1"))] ++
                 [(1700000000002, ("m"))]).map Prod.fst)).contains b.1) }) ∧
      ((1700000000002 : Nat), ("m")) ∈
        (rollbackManifest none 1700000000002 .ok
          { manifestFile := some ("m"),
            backups := [(1700000000001, ("c1"))] }).2.backups ∧
      ((listBackups ([((1700000000001 : Nat), ("c1"))].map Prod.fst)).headD 0) ∈
        [((1700000000001 : Nat), ("c1"))].map Prod.fst ∧
      (∀ b ∈ [((1700000000001 : Nat), ("c1"))].map Prod.fst,
        b ≤ (listBackups ([((1700000000001 : Nat), ("c1"))].map Prod.fst)).headD 0)) :=
  ⟨(C9_rollback { manifestFile := none, backups := [] } 7 ("disk")).1 rfl none .ok,
   (C9_rollback { manifestFile := some ("m"), backups := [(5, ("c"))] } 7
     ("disk")).2.2.1 (by decide),
   (C9_rollback { manifestFile := some ("m"), backups := [(1700000000001, ("c1"))] }
     1700000000002 ("disk")).2.2.2.2.2 ("m") rfl (by decide) (by decide) (by decide)
     (by decide)⟩

/-- The original C9 is refuted by the code: an I/O failure during restore is
caught and returned as a structured Rollback failed result instead of
propagating as fatal; a zero timestamp is treated like an absent one and
restores the latest backup instead of failing with not found; an exact-match
timestamp can fail to restore when the pre-restore backup prunes the target
file; and even the no-timestamp rollback can fail the same way with
timestamps of mixed digit lengths, where the lexicographic pruning deletes
the most recent backup file before it is read. -/
theorem C9_rollback_counterexample :
    (rollbackManifest none 1700000000009 (.failEarly ("disk"))
        { manifestFile := some ("m"), backups := [(1700000000001, ("c1"))] }).1 =
      { success := false, message := ("Rollback failed: disk"),
        restoredFrom := none } ∧
    (rollbackManifest (some 0) 1700000000009 .ok
        { manifestFile := none, backups := [(1700000000001, ("c1"))] }).1 =
      { success := true, message := ("Restored from backup dated 1700000000001"),
        restoredFrom := some 1700000000001 } ∧
    (rollbackManifest (some 1700000000001) 1700000000009 .ok
        { manifestFile := some ("m"),
          backups := [(1700000000001, ("c1")), (1700000000002, ("c2")),
            (1700000000003, ("c3")), (1700000000004, ("c4")),
            (1700000000005, ("c5"))] }).1.success = false ∧
    (rollbackManifest none 101 .ok
        { manifestFile := some ("m"),
          backups := [(90, ("c90")), (91, ("c91")), (92, ("c92")), (93, ("c93")),
            (94, ("c94")), (100, ("c100"))] }).1 =
      { success := false, message := ("Rollback failed: ENOENT"),
        restoredFrom := none } := by
  refine ⟨by decide, by decide, by decide, by decide⟩
